import Mathlib

/-!
Shallow embedding of the report-assembly core of the `deep_researcher` repository
(`src/deep_researcher/agents/long_writer_agent.py` together with the task-plan
schema of `src/deep_researcher/agents/tool_selector_agent.py`).

Python strings are modelled as `List Char`; a Python `dict` as an association
list in insertion order (updating an existing key keeps its position and value
slot, inserting a new key appends, mirroring CPython's ordered dicts); fallible
code (the uncaught `IndexError` path of `convert_ref_list_to_map`) as
`Except Unit`.

The two regex rewrites of the source are modelled by deterministic left-to-right
scanners over the character list.  For the concrete patterns this is exact:
`\[(\d+)\]` matches at a position iff the text there is a bracket, a maximal
nonempty digit run and a closing bracket (a shorter digit run is never followed
by `]`, so greedy backtracking cannot produce further matches), and
`^(#+)\s(.+)$` in MULTILINE mode matches at a line start iff a maximal nonempty
hash run is followed by one whitespace character (possibly the newline itself,
in which case the `(.+)` group reaches into the following line) and a nonempty
run of non-newline characters.  ASCII digits and ASCII whitespace are used where
Python's `str` regexes and `int()` additionally accept some Unicode characters;
every input appearing in the claims is ASCII.
-/

def str (s : String) : List Char := s.data

/-- ASCII model of Python's whitespace class (regex `\s` and `str.strip()`). -/
def isPySpace (c : Char) : Bool :=
  c = ' ' || c = '\t' || c = '\n' || c = '\r' || c = '\x0b' || c = '\x0c'

/-- Remove leading and trailing characters satisfying `p` (Python `str.strip`). -/
def stripChars (p : Char → Bool) (s : List Char) : List Char :=
  ((s.dropWhile p).reverse.dropWhile p).reverse

def digitVal (c : Char) : Nat := c.toNat - 48

def digitsToNat (ds : List Char) : Nat :=
  ds.foldl (fun a c => 10 * a + digitVal c) 0

/-- Valid digit body of a string accepted by Python's `int()`: nonempty, ASCII
digits, with single underscores allowed only between digits.  The head-digit
requirement is checked by the caller `pyIntDigits`. -/
def digitsOKAux : List Char → Bool
  | [] => true
  | c :: rest =>
    if c = '_' then
      (match rest with
       | [] => false
       | d :: _ => d.isDigit) && digitsOKAux rest
    else c.isDigit && digitsOKAux rest

def pyIntDigits (ds : List Char) : Option Nat :=
  match ds with
  | [] => none
  | c :: _ =>
    if c.isDigit && digitsOKAux ds then some (digitsToNat (ds.filter (· ≠ '_')))
    else none

/-- Python `int(s)` on a string: strip whitespace, optional sign, digit body. -/
def parseInt (s : List Char) : Option Int :=
  match stripChars isPySpace s with
  | '+' :: ds => (pyIntDigits ds).map Int.ofNat
  | '-' :: ds => (pyIntDigits ds).map (fun n => -(n : Int))
  | ds => (pyIntDigits ds).map Int.ofNat

def digitChar (n : Nat) : Char := Char.ofNat (48 + n)

/-- Decimal digits of a natural number; the fuel argument of `natDigitsAux` is
always sufficient because a division by ten strictly shrinks the number. -/
def natDigitsAux : Nat → Nat → List Char
  | 0, _ => []
  | fuel + 1, n =>
    if n < 10 then [digitChar n]
    else natDigitsAux fuel (n / 10) ++ [digitChar (n % 10)]

def natDigits (n : Nat) : List Char := natDigitsAux (n + 1) n

/-- Python `str` of an integer. -/
def intRepr (i : Int) : List Char :=
  if i < 0 then '-' :: natDigits (-i).toNat else natDigits i.toNat

/-- Python `dict` assignment `m[k] = v` on an insertion-ordered association
list: an existing key keeps its position and gets the new value, a new key is
appended at the end. -/
def dinsert {α β : Type} [DecidableEq α] (m : List (α × β)) (k : α) (v : β) :
    List (α × β) :=
  if m.any (fun p => p.1 = k) then
    m.map (fun p => if p.1 = k then (k, v) else p)
  else m ++ [(k, v)]

/-- Lookup of a key in the association-list model of a `dict`. -/
def dfind {α β : Type} [DecidableEq α] (m : List (α × β)) (k : α) : Option (α × β) :=
  m.find? (fun p => p.1 = k)

/-- Outcome of one iteration of the loop in `convert_ref_list_to_map`: Python
evaluates `int(ref.split(']')[0].strip('['))` first (a failure raises
`ValueError`, which is caught and skipped) and then `ref.split(']', 1)[1]`,
which raises an uncaught `IndexError` when the string contains no `]`. -/
inductive RefParse
  | ok (num : Int) (url : List Char)
  | valueError
  | indexError
deriving DecidableEq

def parseRef (ref : List Char) : RefParse :=
  match parseInt (stripChars (· = '[') (ref.takeWhile (· ≠ ']'))) with
  | none => .valueError
  | some n =>
    match ref.dropWhile (· ≠ ']') with
    | _ :: post => .ok n (stripChars isPySpace post)
    | [] => .indexError

def convertGo :
    List (List Char) → List (List Char × Int) → Except Unit (List (List Char × Int))
  | [], m => .ok m
  | r :: rs, m =>
    match parseRef r with
    | .ok n url => convertGo rs (dinsert m url n)
    | .valueError => convertGo rs m
    | .indexError => .error ()

/-- Model of `convert_ref_list_to_map` inside `reformat_references`
(src/deep_researcher/agents/long_writer_agent.py lines 242-252). -/
def convert_ref_list_to_map (refList : List (List Char)) :
    Except Unit (List (List Char × Int)) :=
  convertGo refList []

/-- Python `max(report_ref_map.values() or [0])` (line 259). -/
def dictMax0 : List Int → Int
  | [] => 0
  | v :: vs => vs.foldl max v

/-- The string `f"[{ref_count}] {url}"` appended to the global list (line 267). -/
def refEntry (n : Int) (url : List Char) : List Char :=
  '[' :: intRepr n ++ ']' :: ' ' :: url

/-- The main loop of `reformat_references` (lines 258-267): fold over the
section reference map in insertion order, threading the local-to-global number
map `section_to_report_ref_map`, the global reference list and `ref_count`. -/
def consolidate :
    List (List Char × Int) → List (List Char × Int) →
    List (Int × Int) → List (List Char) → Int →
    List (Int × Int) × List (List Char) × Int
  | [], _, s2r, refs, cnt => (s2r, refs, cnt)
  | (url, n) :: rest, repMap, s2r, refs, cnt =>
    match dfind repMap url with
    | some q => consolidate rest repMap (dinsert s2r n q.2) refs cnt
    | none =>
      consolidate rest repMap (dinsert s2r n (cnt + 1))
        (refs ++ [refEntry (cnt + 1) url]) (cnt + 1)

/-- The `replace_reference` callback (lines 269-276): look the matched number up
in the local-to-global map; `if mapped_ref_num:` is Python truthiness, so a
missing key and a mapped value of 0 both delete the marker. -/
def replace_reference (s2r : List (Int × Int)) (n : Nat) : List Char :=
  match dfind s2r (n : Int) with
  | some p => if p.2 ≠ 0 then '[' :: intRepr p.2 ++ [']'] else []
  | none => []

/-- Scanner state for `re.sub(r'\[(\d+)\]', replace_reference, body)`: scanning
plainly, or just past a `[` holding the digits read so far (reversed). -/
inductive MarkState
  | scan
  | digits (ds : List Char)
deriving DecidableEq

def subMGo (s2r : List (Int × Int)) : MarkState → List Char → List Char
  | .scan, [] => []
  | .scan, c :: rest =>
    if c = '[' then subMGo s2r (.digits []) rest
    else c :: subMGo s2r .scan rest
  | .digits ds, [] => '[' :: ds.reverse
  | .digits ds, c :: rest =>
    if c.isDigit then subMGo s2r (.digits (c :: ds)) rest
    else if c = ']' then
      if ds.isEmpty then '[' :: ']' :: subMGo s2r .scan rest
      else replace_reference s2r (digitsToNat ds.reverse) ++ subMGo s2r .scan rest
    else if c = '[' then '[' :: ds.reverse ++ subMGo s2r (.digits []) rest
    else '[' :: ds.reverse ++ c :: subMGo s2r .scan rest

/-- Model of `reformat_references` (lines 226-281); the `Except` propagates the
uncaught `IndexError` of `convert_ref_list_to_map`.  Returns the rewritten body
and the updated global reference list. -/
def reformat_references (section_markdown : List Char)
    (section_references all_references : List (List Char)) :
    Except Unit (List Char × List (List Char)) :=
  match convert_ref_list_to_map section_references with
  | .error e => .error e
  | .ok secMap =>
    match convert_ref_list_to_map all_references with
    | .error e => .error e
    | .ok repMap =>
      let t := consolidate secMap repMap [] all_references (dictMax0 (repMap.map Prod.snd))
      .ok (subMGo t.1 .scan section_markdown, t.2.1)

/-- Scanner state for `re.search(r'^(#+)\s', body, re.MULTILINE)`: at a line
start, inside a hash run of length `k` started at a line start, or skipping to
the next line. -/
inductive SearchState
  | lineStart
  | hashes (k : Nat)
  | skip
deriving DecidableEq

def searchHeading : SearchState → List Char → Option Nat
  | _, [] => none
  | .lineStart, c :: rest =>
    if c = '#' then searchHeading (.hashes 1) rest
    else searchHeading (if c = '\n' then .lineStart else .skip) rest
  | .hashes k, c :: rest =>
    if c = '#' then searchHeading (.hashes (k + 1)) rest
    else if isPySpace c then some k
    else searchHeading (if c = '\n' then .lineStart else .skip) rest
  | .skip, c :: rest => searchHeading (if c = '\n' then .lineStart else .skip) rest

/-- Python `max(2, len(hashes) + level_adjustment)` (line 314). -/
def newLevel (k : Nat) (adj : Int) : Nat := (max 2 ((k : Int) + adj)).toNat

def mkHashes (n : Nat) : List Char := List.replicate n '#'

/-- Scanner state for
`re.sub(r'^(#+)\s(.+)$', adjust_heading_level, body, flags=re.MULTILINE)`.
`lineStart`: at a line start; `hashes k`: read `k` hashes from a line start;
`ws k w`: additionally read the single whitespace character `w` matched by `\s`
(possibly the newline, merging the following line into the heading);
`content k w acc`: inside the `(.+)` group with reversed contents `acc`;
`plain`: mid-line, no match can begin before the next newline. -/
inductive HeadState
  | lineStart
  | hashes (k : Nat)
  | ws (k : Nat) (w : Char)
  | content (k : Nat) (w : Char) (acc : List Char)
  | plain
deriving DecidableEq

def subHGo (adj : Int) : HeadState → List Char → List Char
  | .lineStart, [] => []
  | .lineStart, c :: rest =>
    if c = '#' then subHGo adj (.hashes 1) rest
    else if c = '\n' then '\n' :: subHGo adj .lineStart rest
    else c :: subHGo adj .plain rest
  | .hashes k, [] => mkHashes k
  | .hashes k, c :: rest =>
    if c = '#' then subHGo adj (.hashes (k + 1)) rest
    else if isPySpace c then subHGo adj (.ws k c) rest
    else mkHashes k ++ c :: subHGo adj .plain rest
  | .ws k w, [] => mkHashes k ++ [w]
  | .ws k w, c :: rest =>
    if c = '\n' then mkHashes k ++ w :: '\n' :: subHGo adj .lineStart rest
    else subHGo adj (.content k w [c]) rest
  | .content k _ acc, [] => mkHashes (newLevel k adj) ++ ' ' :: acc.reverse
  | .content k w acc, c :: rest =>
    if c = '\n' then
      mkHashes (newLevel k adj) ++ ' ' :: acc.reverse ++ '\n' :: subHGo adj .lineStart rest
    else subHGo adj (.content k w (c :: acc)) rest
  | .plain, [] => []
  | .plain, c :: rest => c :: subHGo adj (if c = '\n' then .lineStart else .plain) rest

/-- Model of `reformat_section_headings` (lines 284-318): return all-whitespace
bodies unchanged, find the first heading level, and rewrite every heading match
with the level adjustment `2 - first_heading_level`. -/
def reformat_section_headings (section_markdown : List Char) : List Char :=
  if section_markdown.all isPySpace then section_markdown
  else
    match searchHeading .lineStart section_markdown with
    | none => section_markdown
    | some f => subHGo (2 - (f : Int)) .lineStart section_markdown

/-- One table-of-contents line `f"{i+1}. {section.section_title}"` per planned
section (line 207); `k` counts the sections already listed. -/
def tocEntries (k : Nat) : List (List Char) → List (List Char)
  | [] => []
  | t :: ts => (natDigits (k + 1) ++ '.' :: ' ' :: t) :: tocEntries (k + 1) ts

/-- Python `sep.join(pieces)`. -/
def joinSep (sep : List Char) : List (List Char) → List Char
  | [] => []
  | [l] => l
  | l :: ls => l ++ sep ++ joinSep sep ls

/-- The loop of `write_report` (lines 210-219): each externally drafted section
(a body and its reference list; the drafting collaborator's output is
unconstrained) is consolidated against the running global list, has its headings
rebased, and is appended to the document followed by a blank line. -/
def writeLoop :
    List (List Char × List (List Char)) → List Char → List (List Char) →
    Except Unit (List Char × List (List Char))
  | [], acc, refs => .ok (acc, refs)
  | (body, srefs) :: rest, acc, refs =>
    match reformat_references body srefs refs with
    | .error e => .error e
    | .ok (b, refs') =>
      writeLoop rest (acc ++ reformat_section_headings b ++ str "\n\n") refs'

/-- The document prefix built on line 207: title line, then the table of
contents with one numbered entry per planned section, in order. -/
def reportHeader (report_title : List Char) (sectionTitles : List (List Char)) : List Char :=
  str "# " ++ report_title ++ str "\n\n" ++ str "## Table of Contents\n\n" ++
    joinSep (str "\n") (tocEntries 0 sectionTitles) ++ str "\n\n"

/-- The trailing reference block appended on line 222: the literal heading line
is `## References:` followed by a blank line and the entries joined with two
trailing spaces and a newline. -/
def refsTail (refs : List (List Char)) : List Char :=
  str "## References:\n\n" ++ joinSep (str "  \n") refs

/-- Model of `write_report` (lines 198-223); `drafts` lists the outputs of the
external drafting collaborator, one per planned section. -/
def write_report (report_title : List Char) (sectionTitles : List (List Char))
    (drafts : List (List Char × List (List Char))) : Except Unit (List Char) :=
  match writeLoop drafts (reportHeader report_title sectionTitles) [] with
  | .error e => .error e
  | .ok (acc, refs) => .ok (acc ++ refsTail refs)

/-- A sequence of consolidation calls threading the global reference list, as
`write_report` performs them section by section. -/
def runConsolidation :
    List (List Char × List (List Char)) → List (List Char) →
    Except Unit (List (List Char))
  | [], refs => .ok refs
  | (body, srefs) :: rest, refs =>
    match reformat_references body srefs refs with
    | .error e => .error e
    | .ok (_, refs') => runConsolidation rest refs'

/-- Task schema from src/deep_researcher/agents/tool_selector_agent.py
lines 32-37. -/
structure AgentTask where
  gap : Option String
  agent : String
  query : String
  entity_website : Option String
deriving DecidableEq

/-- Plan schema from src/deep_researcher/agents/tool_selector_agent.py
lines 40-42. -/
structure AgentSelectionPlan where
  tasks : List AgentTask
deriving DecidableEq

/-- Modelled from the spec: the iteration controller (`GapLoopController`, spec
sections 4.4 and 8) that dispatches planned tasks is not part of the code under
src/, which only holds the `AgentSelectionPlan` schema it consumes; per the
spec, a gap-planning response is truncated to the batch cap of at most 3 tasks
before dispatch. -/
def dispatchBatch (plan : AgentSelectionPlan) : List AgentTask := plan.tasks.take 3

/-- Split a character list into its newline-separated lines. -/
def splitLines : List Char → List (List Char)
  | [] => [[]]
  | c :: rest =>
    if c = '\n' then [] :: splitLines rest
    else
      match splitLines rest with
      | l :: ls => (c :: l) :: ls
      | [] => [[c]]

def okDoc : Except Unit (List Char) → List Char
  | .ok d => d
  | .error _ => []

/-- A character list with no removable whitespace at either end, the shape of
every locator extracted by `parseRef`. -/
def Stripped (u : List Char) : Prop :=
  u.dropWhile isPySpace = u ∧ u.reverse.dropWhile isPySpace = u.reverse

/-- The global reference list built from a list of locators: entry `i` (from 0)
is the string `[k+i+1] locator`. -/
def numberedRefs (k : Nat) : List (List Char) → List (List Char)
  | [] => []
  | u :: us => refEntry (Int.ofNat (k + 1)) u :: numberedRefs (k + 1) us

/-- The dictionary `convert_ref_list_to_map` produces from `numberedRefs k`. -/
def mapOfUrls (k : Nat) : List (List Char) → List (List Char × Int)
  | [] => []
  | u :: us => (u, Int.ofNat (k + 1)) :: mapOfUrls (k + 1) us

/-- Position of the first occurrence of `u`. -/
def posOf (u : List Char) : List (List Char) → Option Nat
  | [] => none
  | v :: vs => if v = u then some 0 else (posOf u vs).map (· + 1)

/-- Invariant of the global reference list threaded through consolidation: it
lists pairwise distinct, whitespace-stripped locators numbered consecutively
from 1. -/
def GoodRefs (refs : List (List Char)) : Prop :=
  ∃ urls : List (List Char),
    urls.Nodup ∧ (∀ u ∈ urls, Stripped u) ∧ refs = numberedRefs 0 urls

/-- Whether a reference entry parses in `convert_ref_list_to_map`. -/
def isOkParse (r : List Char) : Bool :=
  match parseRef r with
  | .ok _ _ => true
  | _ => false

/-- The locator a reference entry parses to, if any. -/
def entryLoc (r : List Char) : Option (List Char) :=
  match parseRef r with
  | .ok _ u => some u
  | _ => none

/-- The locators of the parsable entries of a reference list, in order. -/
def parsedLocs (l : List (List Char)) : List (List Char) := l.filterMap entryLoc

/-- The local numbers of the parsable entries of a reference list, in order. -/
def parsedNums (l : List (List Char)) : List Int :=
  l.filterMap (fun r =>
    match parseRef r with
    | .ok n _ => some n
    | _ => none)

/-- A reference list obeying the spec's invariant for a single list: every
entry parses, locators are distinct and local numbers are distinct. -/
def WellFormedRefs (l : List (List Char)) : Prop :=
  (∀ r ∈ l, isOkParse r = true) ∧ (parsedLocs l).Nodup ∧ (parsedNums l).Nodup

/-- The local number the dictionary built by `convert_ref_list_to_map` assigns
to locator `L`: the number of the last parsable entry with that locator. -/
def lastNumFor (L : List Char) : List (List Char) → Option Int
  | [] => none
  | r :: rest =>
    match lastNumFor L rest with
    | some n => some n
    | none =>
      match parseRef r with
      | .ok n u => if u = L then some n else none
      | _ => none

/-- The rendered in-text marker `[g]`. -/
def markerChars (g : Int) : List Char := '[' :: intRepr g ++ [']']

/-- A line that is safe for the heading rewriter: it contains no newline, and
if it begins with `#` then the hash run is followed by a space and at least one
further character (so the regex `^(#+)\s(.+)$` matches exactly within the
line). -/
def properLine (l : List Char) : Bool :=
  l.all (· ≠ '\n') &&
    (if l.head? = some '#' then
      decide ((l.dropWhile (· = '#')).head? = some ' ') &&
        decide (2 ≤ (l.dropWhile (· = '#')).length)
    else true)

/-- The per-line effect of `adjust_heading_level` (lines 311-315) on a proper
line: a heading line of level `k` becomes level `max 2 (k + adj)`, any other
line is unchanged. -/
def rewriteLine (adj : Int) (l : List Char) : List Char :=
  if l.head? = some '#' then
    mkHashes (newLevel (l.takeWhile (· = '#')).length adj) ++ l.dropWhile (· = '#')
  else l

/-- The level of the first line beginning with a hash. -/
def firstHeadingLevel : List (List Char) → Option Nat
  | [] => none
  | l :: ls =>
    if l.head? = some '#' then some (l.takeWhile (· = '#')).length
    else firstHeadingLevel ls

instance {ε α : Type} [DecidableEq ε] [DecidableEq α] : DecidableEq (Except ε α) := fun a b =>
  match a, b with
  | .error x, .error y =>
    if h : x = y then .isTrue (by rw [h])
    else .isFalse (by intro hc; injection hc with h2; exact h h2)
  | .error _, .ok _ => .isFalse (fun hc => Except.noConfusion hc)
  | .ok _, .error _ => .isFalse (fun hc => Except.noConfusion hc)
  | .ok x, .ok y =>
    if h : x = y then .isTrue (by rw [h])
    else .isFalse (by intro hc; injection hc with h2; exact h h2)

example : reformat_section_headings (str "##\nX") = str "## X" := by rfl
example : reformat_section_headings (str "### A\n##\nB") = str "## A\n## B" := by rfl
example : reformat_section_headings (str "##\n\nX") = str "##\n\nX" := by rfl
example : reformat_section_headings (str "##\n") = str "##\n" := by rfl
example : reformat_section_headings (str "####\n# T\nx") = str "## # T\nx" := by rfl
example :
    reformat_section_headings (str "# Title\nText\n## Sub\nMore") =
      str "## Title\nText\n### Sub\nMore" := by rfl
example : reformat_section_headings (str "#### A\n##### B") = str "## A\n### B" := by rfl
example : reformat_section_headings (str "x\n##\n# T") = str "x\n## # T" := by rfl
example : reformat_section_headings (str "# \nX") = str "# \nX" := by rfl
example : reformat_section_headings (str "#  x") = str "##  x" := by rfl

example :
    reformat_references (str "x[1] y") [str "[1] a"] [] =
      .ok (str "x[1] y", [str "[1] a"]) := by rfl
example :
    reformat_references (str "") [str "[1] b", str "[2] a"] [str "[1] a"] =
      .ok (str "", [str "[1] a", str "[2] b"]) := by rfl
example :
    reformat_references (str "s1 [3]") [str "[1] a", str "[3] L"] [] =
      .ok (str "s1 [2]", [str "[1] a", str "[2] L"]) := by rfl
example :
    reformat_references (str "s2 [1]") [str "[1] L"] [str "[1] a", str "[2] L"] =
      .ok (str "s2 [2]", [str "[1] a", str "[2] L"]) := by rfl
example :
    reformat_references (str "See [5] for details") [] [] =
      .ok (str "See  for details", []) := by rfl
example :
    reformat_references (str "a[1]b[2]") [str "[1] L", str "[2] L"] [] =
      .ok (str "ab[1]", [str "[1] L"]) := by rfl
example : reformat_references (str "b") [str "abc"] [] = .ok (str "b", []) := by rfl
example : reformat_references (str "b") [str "[3"] [] = .error () := by rfl
example :
    reformat_references (str "[12[3] [] [007]") [str "[3] u", str "[7] v"] [] =
      .ok (str "[12[1] [] [2]", [str "[1] u", str "[2] v"]) := by rfl


section DictLemmas

variable {α β : Type} [DecidableEq α]

lemma dfind_cons (p : α × β) (m : List (α × β)) (k : α) :
    dfind (p :: m) k = if p.1 = k then some p else dfind m k := by
  by_cases h : p.1 = k
  · simp [dfind, List.find?_cons_of_pos, h]
  · simp [dfind, List.find?_cons_of_neg, h]

lemma dfind_append (m m' : List (α × β)) (k : α) :
    dfind (m ++ m') k = (dfind m k).or (dfind m' k) := by
  simp [dfind, List.find?_append]

lemma dfind_eq_none_of_any_false (m : List (α × β)) (k : α)
    (h : m.any (fun p => p.1 = k) = false) : dfind m k = none := by
  rw [dfind, List.find?_eq_none]
  intro x hx
  have := (List.any_eq_false.mp h) x hx
  simpa using this

lemma dinsert_of_not_mem (m : List (α × β)) (k : α) (v : β)
    (h : m.any (fun p => p.1 = k) = false) : dinsert m k v = m ++ [(k, v)] := by
  simp [dinsert, h]

lemma dfind_map_update (m : List (α × β)) (k : α) (v : β)
    (h : m.any (fun p => p.1 = k) = true) :
    dfind (m.map (fun p => if p.1 = k then (k, v) else p)) k = some (k, v) := by
  induction m with
  | nil => simp at h
  | cons p ps ih =>
    by_cases hp : p.1 = k
    · simp [dfind, hp, List.find?_cons_of_pos]
    · have h' : ps.any (fun p => p.1 = k) = true := by simpa [hp] using h
      simpa [dfind, hp, List.find?_cons_of_neg] using ih h'

lemma dfind_map_update_ne (m : List (α × β)) (k k' : α) (v : β) (hk : k' ≠ k) :
    dfind (m.map (fun p => if p.1 = k then (k, v) else p)) k' = dfind m k' := by
  induction m with
  | nil => rfl
  | cons p ps ih =>
    rw [List.map_cons, dfind_cons, dfind_cons]
    by_cases hp : p.1 = k
    · have h1 : ¬(((k, v) : α × β).1 = k') := fun hc => hk hc.symm
      have h2 : ¬(p.1 = k') := by rw [hp]; exact fun hc => hk hc.symm
      rw [if_pos hp, if_neg h1, if_neg h2, ih]
    · rw [if_neg hp]
      by_cases hp' : p.1 = k'
      · rw [if_pos hp', if_pos hp']
      · rw [if_neg hp', if_neg hp', ih]

lemma dfind_dinsert_self (m : List (α × β)) (k : α) (v : β) :
    dfind (dinsert m k v) k = some (k, v) := by
  unfold dinsert
  split
  next h => exact dfind_map_update m k v h
  next h =>
    rw [dfind_append, dfind_eq_none_of_any_false m k (Bool.of_not_eq_true h)]
    simp [dfind_cons]

lemma dfind_dinsert_ne (m : List (α × β)) (k k' : α) (v : β) (hk : k' ≠ k) :
    dfind (dinsert m k v) k' = dfind m k' := by
  unfold dinsert
  split
  next => exact dfind_map_update_ne m k k' v hk
  next =>
    rw [dfind_append]
    have h1 : ¬(((k, v) : α × β).1 = k') := fun hc => hk hc.symm
    simp [dfind_cons, h1, dfind]

lemma keys_map_update (m : List (α × β)) (k : α) (v : β) :
    (m.map (fun p => if p.1 = k then (k, v) else p)).map Prod.fst = m.map Prod.fst := by
  rw [List.map_map]
  apply List.map_congr_left
  intro p _
  by_cases hp : p.1 = k
  · simp [hp]
  · simp [hp]

lemma mem_keys_dinsert (m : List (α × β)) (k a : α) (v : β) :
    a ∈ (dinsert m k v).map Prod.fst ↔ a = k ∨ a ∈ m.map Prod.fst := by
  unfold dinsert
  split
  next h =>
    rw [keys_map_update]
    constructor
    · intro ha; exact Or.inr ha
    · intro ha
      rcases ha with rfl | ha
      · rcases List.any_eq_true.mp h with ⟨p, hp, hpk⟩
        simp only [decide_eq_true_eq] at hpk
        exact hpk ▸ List.mem_map_of_mem Prod.fst hp
      · exact ha
  next =>
    simp [or_comm]

lemma mem_vals_dinsert (m : List (α × β)) (k : α) (v b : β)
    (h : b ∈ (dinsert m k v).map Prod.snd) : b = v ∨ b ∈ m.map Prod.snd := by
  unfold dinsert at h
  split at h
  next =>
    rw [List.map_map] at h
    rcases List.mem_map.mp h with ⟨p, hp, hpb⟩
    by_cases hpk : p.1 = k
    · left; simp only [Function.comp, hpk, if_pos] at hpb; exact hpb.symm
    · right
      simp only [Function.comp, hpk, if_neg, if_false] at hpb
      exact hpb ▸ List.mem_map_of_mem Prod.snd hp
  next =>
    rw [List.map_append] at h
    rcases List.mem_append.mp h with hp' | hp'
    · right; exact hp'
    · left; simp at hp'; exact hp'

lemma keys_nodup_dinsert (m : List (α × β)) (k : α) (v : β)
    (h : (m.map Prod.fst).Nodup) : ((dinsert m k v).map Prod.fst).Nodup := by
  unfold dinsert
  split
  next => rw [keys_map_update]; exact h
  next hmem =>
    have hk : k ∉ m.map Prod.fst := by
      intro hc
      rcases List.mem_map.mp hc with ⟨p, hp, hpk⟩
      have := (List.any_eq_false.mp (Bool.of_not_eq_true hmem)) p hp
      simp [hpk] at this
    simp [List.nodup_append, h, hk]

end DictLemmas


section CharLemmas

lemma ne_of_isDigit_of_not (c d : Char) (h : c.isDigit = true) (hd : d.isDigit = false) :
    c ≠ d := by
  intro hc
  subst hc
  rw [h] at hd
  exact Bool.noConfusion hd

lemma not_isPySpace_of_isDigit (c : Char) (h : c.isDigit = true) : isPySpace c = false := by
  cases hsp : isPySpace c
  · rfl
  · exfalso
    unfold isPySpace at hsp
    simp only [Bool.or_eq_true, decide_eq_true_eq] at hsp
    rcases hsp with ((((rfl | rfl) | rfl) | rfl) | rfl) | rfl <;> exact absurd h (by decide)

lemma digitChar_isDigit (d : Nat) (h : d < 10) : (digitChar d).isDigit = true := by
  interval_cases d <;> decide

lemma digitVal_digitChar (d : Nat) (h : d < 10) : digitVal (digitChar d) = d := by
  interval_cases d <;> decide

lemma takeWhile_append_of_all (p : Char → Bool) (ds l : List Char)
    (h : ∀ c ∈ ds, p c = true) : (ds ++ l).takeWhile p = ds ++ l.takeWhile p := by
  induction ds with
  | nil => rfl
  | cons c cs ih =>
    rw [List.cons_append, List.takeWhile_cons, if_pos (h c (List.mem_cons_self c cs)),
      ih (fun x hx => h x (List.mem_cons_of_mem c hx)), List.cons_append]

lemma dropWhile_append_of_all (p : Char → Bool) (ds l : List Char)
    (h : ∀ c ∈ ds, p c = true) : (ds ++ l).dropWhile p = l.dropWhile p := by
  induction ds with
  | nil => rfl
  | cons c cs ih =>
    rw [List.cons_append, List.dropWhile_cons, if_pos (h c (List.mem_cons_self c cs))]
    exact ih (fun x hx => h x (List.mem_cons_of_mem c hx))

lemma dropWhile_eq_self_of_all (p : Char → Bool) (s : List Char)
    (h : ∀ c ∈ s, p c = false) : s.dropWhile p = s := by
  cases s with
  | nil => rfl
  | cons c cs =>
    rw [List.dropWhile_cons, if_neg (by simp [h c (List.mem_cons_self c cs)])]

lemma dropWhile_eq_self_of_head (p : Char → Bool) (s : List Char)
    (h : ∀ c, s.head? = some c → p c = false) : s.dropWhile p = s := by
  cases s with
  | nil => rfl
  | cons c cs => rw [List.dropWhile_cons, if_neg (by simp [h c rfl])]

lemma stripChars_eq_self_of_all (p : Char → Bool) (s : List Char)
    (h : ∀ c ∈ s, p c = false) : stripChars p s = s := by
  unfold stripChars
  rw [dropWhile_eq_self_of_all p s h,
    dropWhile_eq_self_of_all p s.reverse (fun c hc => h c (List.mem_reverse.mp hc)),
    List.reverse_reverse]

lemma stripChars_cons_of_pos (p : Char → Bool) (c : Char) (s : List Char)
    (hc : p c = true) : stripChars p (c :: s) = stripChars p s := by
  unfold stripChars
  rw [List.dropWhile_cons, if_pos hc]

lemma getLast?_dropWhile (p : Char → Bool) (l : List Char) (h : l.dropWhile p ≠ []) :
    (l.dropWhile p).getLast? = l.getLast? := by
  induction l with
  | nil => exact absurd rfl h
  | cons c cs ih =>
    by_cases hc : p c = true
    · rw [List.dropWhile_cons, if_pos hc]
      rw [List.dropWhile_cons, if_pos hc] at h
      have hcs : cs ≠ [] := by
        intro hnil
        rw [hnil] at h
        exact h rfl
      rcases List.exists_cons_of_ne_nil hcs with ⟨x, xs, rfl⟩
      rw [ih h, List.getLast?_cons_cons]
    · rw [List.dropWhile_cons, if_neg hc]

lemma stripChars_of_stripped (u : List Char) (h : Stripped u) :
    stripChars isPySpace u = u := by
  unfold stripChars
  rw [h.1, h.2, List.reverse_reverse]

lemma stripped_stripChars (x : List Char) : Stripped (stripChars isPySpace x) := by
  unfold Stripped
  constructor
  · apply dropWhile_eq_self_of_head
    intro c hc
    unfold stripChars at hc
    rw [List.head?_reverse] at hc
    by_cases htn : (x.dropWhile isPySpace).reverse.dropWhile isPySpace = []
    · rw [htn] at hc
      exact absurd hc (by simp)
    · rw [getLast?_dropWhile isPySpace _ htn, List.getLast?_reverse] at hc
      have han : x.dropWhile isPySpace ≠ [] := by
        intro hnil
        rw [hnil] at hc
        exact absurd hc (by simp)
      rw [List.head?_eq_head han] at hc
      rw [← Option.some.inj hc]
      exact List.head_dropWhile_not isPySpace x han
  · unfold stripChars
    rw [List.reverse_reverse]
    exact List.dropWhile_idempotent ..

lemma stripped_of_no_space (u : List Char) (h : ∀ c ∈ u, isPySpace c = false) :
    Stripped u := by
  unfold Stripped
  constructor
  · exact dropWhile_eq_self_of_all _ _ h
  · exact dropWhile_eq_self_of_all _ _ (fun c hc => h c (List.mem_reverse.mp hc))

end CharLemmas

section DigitLemmas

lemma digitsToNat_concat (ds : List Char) (c : Char) :
    digitsToNat (ds ++ [c]) = 10 * digitsToNat ds + digitVal c := by
  simp [digitsToNat, List.foldl_append]

lemma natDigitsAux_spec :
    ∀ n fuel, n < fuel →
      (∀ c ∈ natDigitsAux fuel n, c.isDigit = true) ∧
        digitsToNat (natDigitsAux fuel n) = n ∧ natDigitsAux fuel n ≠ [] := by
  intro n
  induction n using Nat.strong_induction_on with
  | _ n ih =>
    intro fuel hf
    match fuel with
    | 0 => omega
    | fuel + 1 =>
      unfold natDigitsAux
      by_cases h10 : n < 10
      · rw [if_pos h10]
        refine ⟨?_, ?_, by simp⟩
        · intro c hc
          simp only [List.mem_singleton] at hc
          subst hc
          exact digitChar_isDigit n h10
        · show digitsToNat [digitChar n] = n
          rw [show digitsToNat [digitChar n] = digitVal (digitChar n) from by
            simp [digitsToNat]]
          exact digitVal_digitChar n h10
      · rw [if_neg h10]
        have hdiv : n / 10 < n := Nat.div_lt_self (by omega) (by omega)
        have hfu : n / 10 < fuel := by omega
        obtain ⟨ha, hv, _⟩ := ih (n / 10) hdiv fuel hfu
        refine ⟨?_, ?_, by simp⟩
        · intro c hc
          rcases List.mem_append.mp hc with hc' | hc'
          · exact ha c hc'
          · simp only [List.mem_singleton] at hc'
            subst hc'
            exact digitChar_isDigit (n % 10) (Nat.mod_lt n (by omega))
        · rw [digitsToNat_concat, hv, digitVal_digitChar (n % 10) (Nat.mod_lt n (by omega))]
          exact Nat.div_add_mod n 10

lemma natDigits_digits (n : Nat) : ∀ c ∈ natDigits n, c.isDigit = true :=
  (natDigitsAux_spec n (n + 1) (by omega)).1

lemma digitsToNat_natDigits (n : Nat) : digitsToNat (natDigits n) = n :=
  (natDigitsAux_spec n (n + 1) (by omega)).2.1

lemma natDigits_ne_nil (n : Nat) : natDigits n ≠ [] :=
  (natDigitsAux_spec n (n + 1) (by omega)).2.2

lemma digitsOKAux_of_digits (ds : List Char) (h : ∀ c ∈ ds, c.isDigit = true) :
    digitsOKAux ds = true := by
  induction ds with
  | nil => rfl
  | cons c cs ih =>
    unfold digitsOKAux
    rw [if_neg (ne_of_isDigit_of_not c '_' (h c (List.mem_cons_self c cs)) (by decide))]
    rw [h c (List.mem_cons_self c cs), ih (fun x hx => h x (List.mem_cons_of_mem c hx))]
    rfl

lemma pyIntDigits_of_digits (ds : List Char) (hne : ds ≠ [])
    (h : ∀ c ∈ ds, c.isDigit = true) : pyIntDigits ds = some (digitsToNat ds) := by
  rcases List.exists_cons_of_ne_nil hne with ⟨c, cs, rfl⟩
  have hred : pyIntDigits (c :: cs) =
      if (c.isDigit && digitsOKAux (c :: cs)) = true then
        some (digitsToNat ((c :: cs).filter (fun x => decide (x ≠ '_'))))
      else none := rfl
  rw [hred, if_pos (by
    rw [h c (List.mem_cons_self c cs), digitsOKAux_of_digits _ h]
    rfl)]
  congr 1
  congr 1
  rw [List.filter_eq_self]
  intro a ha
  simpa using ne_of_isDigit_of_not a '_' (h a ha) (by decide)

lemma parseInt_digits (ds : List Char) (hne : ds ≠ [])
    (h : ∀ c ∈ ds, c.isDigit = true) :
    parseInt ds = some (Int.ofNat (digitsToNat ds)) := by
  unfold parseInt
  rw [stripChars_eq_self_of_all _ _ (fun c hc => not_isPySpace_of_isDigit c (h c hc))]
  rcases List.exists_cons_of_ne_nil hne with ⟨c, cs, rfl⟩
  have hplus : c ≠ '+' := ne_of_isDigit_of_not c '+' (h c (List.mem_cons_self c cs)) (by decide)
  have hminus : c ≠ '-' := ne_of_isDigit_of_not c '-' (h c (List.mem_cons_self c cs)) (by decide)
  split
  next heq =>
    exfalso
    injection heq with h1 _
    exact hplus h1
  next heq =>
    exfalso
    injection heq with h1 _
    exact hminus h1
  next =>
    rw [pyIntDigits_of_digits _ hne h]
    rfl

lemma parseInt_natDigits (n : Nat) : parseInt (natDigits n) = some (Int.ofNat n) := by
  rw [parseInt_digits (natDigits n) (natDigits_ne_nil n) (natDigits_digits n),
    digitsToNat_natDigits]

lemma intRepr_ofNat (n : Nat) : intRepr (Int.ofNat n) = natDigits n := by
  unfold intRepr
  rw [if_neg (show ¬ Int.ofNat n < 0 from not_lt.mpr (Int.ofNat_nonneg n))]
  simp

end DigitLemmas

section RefLemmas

lemma parseRef_refEntry (m : Nat) (u : List Char) (hu : Stripped u) :
    parseRef (refEntry (Int.ofNat (m + 1)) u) = .ok (Int.ofNat (m + 1)) u := by
  have hdig := natDigits_digits (m + 1)
  have hne : ∀ c ∈ natDigits (m + 1), (fun c => decide (c ≠ ']')) c = true := by
    intro c hc
    simpa using ne_of_isDigit_of_not c ']' (hdig c hc) (by decide)
  unfold refEntry parseRef
  rw [intRepr_ofNat]
  have h1 : ('[' :: natDigits (m + 1) ++ ']' :: ' ' :: u).takeWhile (· ≠ ']') =
      '[' :: natDigits (m + 1) := by
    rw [List.cons_append, List.takeWhile_cons, if_pos (by decide),
      takeWhile_append_of_all _ _ _ hne, List.takeWhile_cons, if_neg (by decide)]
    simp
  have h2 : ('[' :: natDigits (m + 1) ++ ']' :: ' ' :: u).dropWhile (· ≠ ']') =
      ']' :: ' ' :: u := by
    rw [List.cons_append, List.dropWhile_cons, if_pos (by decide),
      dropWhile_append_of_all _ _ _ hne, List.dropWhile_cons, if_neg (by decide)]
  rw [h1, h2]
  have h3 : stripChars (· = '[') ('[' :: natDigits (m + 1)) = natDigits (m + 1) := by
    rw [stripChars_cons_of_pos _ _ _ (by decide)]
    exact stripChars_eq_self_of_all _ _ (fun c hc => by
      simpa using ne_of_isDigit_of_not c '[' (hdig c hc) (by decide))
  rw [h3, parseInt_natDigits]
  show RefParse.ok (Int.ofNat (m + 1)) (stripChars isPySpace (' ' :: u)) = _
  rw [stripChars_cons_of_pos _ _ _ (by decide), stripChars_of_stripped u hu]

lemma numberedRefs_append (k : Nat) (us vs : List (List Char)) :
    numberedRefs k (us ++ vs) = numberedRefs k us ++ numberedRefs (k + us.length) vs := by
  induction us generalizing k with
  | nil => simp [numberedRefs]
  | cons u us ih =>
    have h1 : k + (u :: us).length = (k + 1) + us.length := by
      simp only [List.length_cons]
      omega
    calc numberedRefs k ((u :: us) ++ vs)
        = refEntry (Int.ofNat (k + 1)) u :: numberedRefs (k + 1) (us ++ vs) := rfl
      _ = refEntry (Int.ofNat (k + 1)) u ::
            (numberedRefs (k + 1) us ++ numberedRefs ((k + 1) + us.length) vs) := by
          rw [ih (k + 1)]
      _ = numberedRefs k (u :: us) ++ numberedRefs (k + (u :: us).length) vs := by
          rw [h1]
          rfl

lemma numberedRefs_concat (k : Nat) (us : List (List Char)) (u : List Char) :
    numberedRefs k us ++ [refEntry (Int.ofNat (k + us.length + 1)) u] =
      numberedRefs k (us ++ [u]) := by
  rw [numberedRefs_append]
  rfl

lemma keys_mapOfUrls (k : Nat) (urls : List (List Char)) :
    (mapOfUrls k urls).map Prod.fst = urls := by
  induction urls generalizing k with
  | nil => rfl
  | cons u us ih => simp [mapOfUrls, ih]

lemma dfind_mapOfUrls (u : List Char) (urls : List (List Char)) (k : Nat) :
    dfind (mapOfUrls k urls) u =
      (posOf u urls).map (fun i => (u, Int.ofNat (k + i + 1))) := by
  induction urls generalizing k with
  | nil => rfl
  | cons v vs ih =>
    unfold mapOfUrls posOf
    rw [dfind_cons]
    by_cases hv : v = u
    · subst hv
      simp
    · rw [if_neg hv, if_neg hv, ih (k + 1), Option.map_map]
      rcases posOf u vs with _ | i
      · rfl
      · show some _ = some _
        simp only [Option.map_some, Function.comp, Option.some.injEq]
        congr 2
        omega

lemma posOf_eq_none_iff (u : List Char) (urls : List (List Char)) :
    posOf u urls = none ↔ u ∉ urls := by
  induction urls with
  | nil => simp [posOf]
  | cons v vs ih =>
    unfold posOf
    by_cases hv : v = u
    · subst hv
      simp
    · rw [if_neg hv]
      constructor
      · intro h
        have hvs : posOf u vs = none := by
          rcases hp : posOf u vs with _ | i
          · rfl
          · rw [hp] at h
            exact Option.noConfusion h
        intro hmem
        rcases List.mem_cons.mp hmem with h1 | h1
        · exact hv h1.symm
        · exact (ih.mp hvs) h1
      · intro hmem
        have hu : u ∉ vs := fun hc => hmem (List.mem_cons_of_mem v hc)
        rw [ih.mpr hu]
        rfl

lemma convertGo_numberedRefs (urls : List (List Char)) :
    ∀ (k : Nat) (acc : List (List Char × Int)),
      urls.Nodup → (∀ u ∈ urls, Stripped u) →
      (∀ p ∈ acc, p.1 ∉ urls) →
      convertGo (numberedRefs k urls) acc = .ok (acc ++ mapOfUrls k urls) := by
  induction urls with
  | nil => intro k acc _ _ _; simp [numberedRefs, mapOfUrls, convertGo]
  | cons u us ih =>
    intro k acc hnd hst hdisj
    unfold numberedRefs convertGo
    rw [parseRef_refEntry k u (hst u (List.mem_cons_self u us))]
    show convertGo (numberedRefs (k + 1) us) (dinsert acc u (Int.ofNat (k + 1))) =
      Except.ok (acc ++ mapOfUrls k (u :: us))
    have hany : acc.any (fun p => p.1 = u) = false := by
      rw [List.any_eq_false]
      intro p hp
      simp only [decide_eq_true_eq]
      intro hc
      exact hdisj p hp (hc ▸ List.mem_cons_self u us)
    rw [dinsert_of_not_mem acc u (Int.ofNat (k + 1)) hany]
    have hdisj2 : ∀ p ∈ acc ++ [(u, Int.ofNat (k + 1))], p.1 ∉ us := by
      intro p hp
      rcases List.mem_append.mp hp with hp2 | hp2
      · intro hc
        exact hdisj p hp2 (List.mem_cons_of_mem u hc)
      · simp only [List.mem_singleton] at hp2
        subst hp2
        exact (List.nodup_cons.mp hnd).1
    rw [ih (k + 1) (acc ++ [(u, Int.ofNat (k + 1))]) (List.Nodup.of_cons hnd)
      (fun v hv => hst v (List.mem_cons_of_mem u hv)) hdisj2]
    rw [List.append_assoc]
    rfl

lemma convert_numberedRefs (urls : List (List Char)) (hnd : urls.Nodup)
    (hst : ∀ u ∈ urls, Stripped u) :
    convert_ref_list_to_map (numberedRefs 0 urls) = .ok (mapOfUrls 0 urls) := by
  unfold convert_ref_list_to_map
  rw [convertGo_numberedRefs urls 0 [] hnd hst (by simp)]
  rfl

lemma foldl_max_mapOfUrls (us : List (List Char)) :
    ∀ (k : Nat) (a : Int), a ≤ Int.ofNat k + 1 →
      List.foldl max a ((mapOfUrls k us).map Prod.snd) =
        if us.isEmpty then a else Int.ofNat (k + us.length) := by
  induction us with
  | nil => intro k a _; rfl
  | cons u vs ih =>
    intro k a ha
    unfold mapOfUrls
    rw [List.map_cons, List.foldl_cons]
    have hmax : max a (Int.ofNat (k + 1)) = Int.ofNat (k + 1) := by
      apply max_eq_right
      simp only [Int.ofNat_eq_coe] at ha ⊢
      push_cast at ha ⊢
      omega
    have hstep : Int.ofNat (k + 1) ≤ Int.ofNat (k + 1) + 1 := by
      simp only [Int.ofNat_eq_coe]
      omega
    rw [hmax, ih (k + 1) (Int.ofNat (k + 1)) hstep]
    rcases vs with _ | ⟨v, vs2⟩
    · simp
    · have h1 : ¬((v :: vs2).isEmpty = true) := by simp
      have h2 : ¬((u :: v :: vs2).isEmpty = true) := by simp
      rw [if_neg h1, if_neg h2]
      simp only [Int.ofNat_eq_coe, List.length_cons]
      congr 1
      omega

lemma dictMax0_mapOfUrls (urls : List (List Char)) :
    dictMax0 ((mapOfUrls 0 urls).map Prod.snd) = Int.ofNat urls.length := by
  rcases urls with _ | ⟨u, us⟩
  · rfl
  · unfold mapOfUrls
    rw [List.map_cons]
    show List.foldl max (Int.ofNat 1) ((mapOfUrls 1 us).map Prod.snd) = _
    rw [foldl_max_mapOfUrls us 1 (Int.ofNat 1) (by simp only [Int.ofNat_eq_coe]; omega)]
    rcases us with _ | ⟨v, vs⟩
    · rfl
    · have h1 : ¬((v :: vs).isEmpty = true) := by simp
      rw [if_neg h1]
      simp only [Int.ofNat_eq_coe, List.length_cons]
      congr 1
      omega

end RefLemmas

section ConsolidateLemmas

lemma intOfNat_succ (n : Nat) : Int.ofNat n + 1 = Int.ofNat (n + 1) := rfl

lemma parseRef_ok_stripped (r : List Char) (n : Int) (u : List Char)
    (h : parseRef r = .ok n u) : Stripped u := by
  unfold parseRef at h
  rcases hpi : parseInt (stripChars (· = '[') (r.takeWhile (· ≠ ']'))) with _ | n'
  · rw [hpi] at h
    exact absurd h (by simp)
  · rw [hpi] at h
    rcases hd : r.dropWhile (· ≠ ']') with _ | ⟨c, post⟩
    · rw [hd] at h
      exact absurd h (by simp)
    · rw [hd] at h
      have hu : stripChars isPySpace post = u := by
        injection h
      rw [← hu]
      exact stripped_stripChars post

lemma mem_dinsert {α β : Type} [DecidableEq α] (m : List (α × β)) (k : α) (v : β)
    (q : α × β) (h : q ∈ dinsert m k v) : q = (k, v) ∨ q ∈ m := by
  unfold dinsert at h
  split at h
  next =>
    rcases List.mem_map.mp h with ⟨p, hp, hpq⟩
    by_cases hpk : p.1 = k
    · left
      rw [if_pos hpk] at hpq
      exact hpq.symm
    · right
      rw [if_neg hpk] at hpq
      exact hpq ▸ hp
  next =>
    rcases List.mem_append.mp h with h' | h'
    · right; exact h'
    · left; simpa using h'

lemma convertGo_props (l : List (List Char)) :
    ∀ (acc m : List (List Char × Int)), convertGo l acc = .ok m →
      (acc.map Prod.fst).Nodup → (∀ p ∈ acc, Stripped p.1) →
      (m.map Prod.fst).Nodup ∧ (∀ p ∈ m, Stripped p.1) := by
  induction l with
  | nil =>
    intro acc m h hk hs
    have : acc = m := by injection h
    subst this
    exact ⟨hk, hs⟩
  | cons r rs ih =>
    intro acc m h hk hs
    unfold convertGo at h
    cases hp : parseRef r with
    | ok n u =>
      rw [hp] at h
      refine ih (dinsert acc u n) m h (keys_nodup_dinsert acc u n hk) ?_
      intro q hq
      rcases mem_dinsert acc u n q hq with rfl | hq'
      · exact parseRef_ok_stripped r n u hp
      · exact hs q hq'
    | valueError =>
      rw [hp] at h
      exact ih acc m h hk hs
    | indexError =>
      rw [hp] at h
      exact absurd h (by simp)

lemma consolidate_cons (u : List Char) (n : Int) (rest repMap : List (List Char × Int))
    (s2r : List (Int × Int)) (refs : List (List Char)) (cnt : Int) :
    consolidate ((u, n) :: rest) repMap s2r refs cnt =
      match dfind repMap u with
      | some q => consolidate rest repMap (dinsert s2r n q.2) refs cnt
      | none =>
        consolidate rest repMap (dinsert s2r n (cnt + 1))
          (refs ++ [refEntry (cnt + 1) u]) (cnt + 1) := rfl

lemma consolidate_cons_new (u : List Char) (n : Int) (rest repMap : List (List Char × Int))
    (s2r : List (Int × Int)) (refs : List (List Char)) (cnt : Int)
    (hf : dfind repMap u = none) :
    consolidate ((u, n) :: rest) repMap s2r refs cnt =
      consolidate rest repMap (dinsert s2r n (cnt + 1))
        (refs ++ [refEntry (cnt + 1) u]) (cnt + 1) := by
  rw [consolidate_cons, hf]

lemma consolidate_cons_found (u : List Char) (n : Int) (rest repMap : List (List Char × Int))
    (s2r : List (Int × Int)) (refs : List (List Char)) (cnt : Int) (q : List Char × Int)
    (hf : dfind repMap u = some q) :
    consolidate ((u, n) :: rest) repMap s2r refs cnt =
      consolidate rest repMap (dinsert s2r n q.2) refs cnt := by
  rw [consolidate_cons, hf]

lemma consolidate_spec (sec : List (List Char × Int)) :
    ∀ (urls newUrls : List (List Char)) (s2r : List (Int × Int)),
      (urls ++ newUrls).Nodup →
      (∀ u ∈ urls ++ newUrls, Stripped u) →
      (∀ p ∈ sec, Stripped p.1) →
      (∀ p ∈ sec, p.1 ∉ newUrls) →
      (sec.map Prod.fst).Nodup →
      ∃ moreUrls : List (List Char),
        (consolidate sec (mapOfUrls 0 urls) s2r (numberedRefs 0 (urls ++ newUrls))
            (Int.ofNat (urls.length + newUrls.length))).2.1 =
          numberedRefs 0 (urls ++ newUrls ++ moreUrls) ∧
        (urls ++ newUrls ++ moreUrls).Nodup ∧
        (∀ u ∈ moreUrls, Stripped u) ∧
        (consolidate sec (mapOfUrls 0 urls) s2r (numberedRefs 0 (urls ++ newUrls))
            (Int.ofNat (urls.length + newUrls.length))).2.2 =
          Int.ofNat (urls.length + newUrls.length + moreUrls.length) := by
  induction sec with
  | nil =>
    intro urls newUrls s2r hnd hst _ _ _
    refine ⟨[], by simp [consolidate], by simpa using hnd, by simp, by simp [consolidate]⟩
  | cons p rest ih =>
    obtain ⟨u, n⟩ := p
    intro urls newUrls s2r hnd hst hsst hsnew hskeys
    rcases hf : dfind (mapOfUrls 0 urls) u with _ | q
    · -- the locator is not yet in the global list: it is appended
      have hstep := consolidate_cons_new u n rest (mapOfUrls 0 urls) s2r
        (numberedRefs 0 (urls ++ newUrls)) (Int.ofNat (urls.length + newUrls.length)) hf
      have hu_urls : u ∉ urls := by
        rw [dfind_mapOfUrls] at hf
        rcases hpos : posOf u urls with _ | i
        · exact (posOf_eq_none_iff u urls).mp hpos
        · rw [hpos] at hf
          exact absurd hf (by simp)
      have hu_new : u ∉ newUrls := hsnew (u, n) (List.mem_cons_self _ _)
      have hrefs2 : numberedRefs 0 (urls ++ newUrls) ++
          [refEntry (Int.ofNat (urls.length + newUrls.length) + 1) u] =
          numberedRefs 0 (urls ++ (newUrls ++ [u])) := by
        rw [intOfNat_succ,
          show urls.length + newUrls.length + 1 = 0 + (urls ++ newUrls).length + 1 from by
            simp only [List.length_append]
            omega,
          numberedRefs_concat 0 (urls ++ newUrls) u, List.append_assoc]
      have hcnt2 : Int.ofNat (urls.length + newUrls.length) + 1 =
          Int.ofNat (urls.length + (newUrls ++ [u]).length) := by
        rw [intOfNat_succ]
        congr 1
        simp only [List.length_append, List.length_cons, List.length_nil]
        omega
      have hnd2 : (urls ++ (newUrls ++ [u])).Nodup := by
        rw [← List.append_assoc, List.nodup_append]
        refine ⟨hnd, List.nodup_singleton u, ?_⟩
        intro x hx hxu
        simp only [List.mem_singleton] at hxu
        subst hxu
        rcases List.mem_append.mp hx with h' | h'
        · exact hu_urls h'
        · exact hu_new h'
      have hst2 : ∀ v ∈ urls ++ (newUrls ++ [u]), Stripped v := by
        intro v hv
        rw [← List.append_assoc] at hv
        rcases List.mem_append.mp hv with h' | h'
        · exact hst v h'
        · simp only [List.mem_singleton] at h'
          subst h'
          exact hsst (v, n) (List.mem_cons_self _ _)
      have hsnew2 : ∀ p ∈ rest, p.1 ∉ newUrls ++ [u] := by
        intro p hp hmem
        rcases List.mem_append.mp hmem with h' | h'
        · exact hsnew p (List.mem_cons_of_mem _ hp) h'
        · simp only [List.mem_singleton] at h'
          have : u ∉ rest.map Prod.fst := (List.nodup_cons.mp hskeys).1
          exact this (h' ▸ List.mem_map_of_mem Prod.fst hp)
      rw [hrefs2, hcnt2] at hstep
      rcases ih urls (newUrls ++ [u])
          (dinsert s2r n (Int.ofNat (urls.length + (newUrls ++ [u]).length))) hnd2 hst2
          (fun p hp => hsst p (List.mem_cons_of_mem _ hp)) hsnew2
          (List.nodup_cons.mp hskeys).2 with ⟨more, h1, h2, h3, h4⟩
      rw [hstep]
      refine ⟨u :: more, ?_, ?_, ?_, ?_⟩
      · rw [h1]
        congr 1
        simp
      · have hassoc : urls ++ (newUrls ++ [u]) ++ more = urls ++ newUrls ++ (u :: more) := by
          simp
        rw [← hassoc]
        exact h2
      · intro v hv
        rcases List.mem_cons.mp hv with rfl | hv'
        · exact hsst (v, n) (List.mem_cons_self _ _)
        · exact h3 v hv'
      · rw [h4]
        congr 1
        simp
        omega
    · -- the locator is already in the global list: nothing is appended
      have hstep := consolidate_cons_found u n rest (mapOfUrls 0 urls) s2r
        (numberedRefs 0 (urls ++ newUrls)) (Int.ofNat (urls.length + newUrls.length)) q hf
      rw [hstep]
      exact ih urls newUrls (dinsert s2r n q.2) hnd hst
        (fun p hp => hsst p (List.mem_cons_of_mem _ hp))
        (fun p hp => hsnew p (List.mem_cons_of_mem _ hp))
        (List.nodup_cons.mp hskeys).2

end ConsolidateLemmas

section ReformatLemmas

lemma reformat_eq (body : List Char) (secRefs refs : List (List Char))
    (secMap repMap : List (List Char × Int))
    (h1 : convert_ref_list_to_map secRefs = .ok secMap)
    (h2 : convert_ref_list_to_map refs = .ok repMap) :
    reformat_references body secRefs refs =
      .ok (subMGo (consolidate secMap repMap [] refs (dictMax0 (repMap.map Prod.snd))).1
          .scan body,
        (consolidate secMap repMap [] refs (dictMax0 (repMap.map Prod.snd))).2.1) := by
  unfold reformat_references
  rw [h1, h2]

lemma reformat_error_sec (body : List Char) (secRefs refs : List (List Char)) (e : Unit)
    (h1 : convert_ref_list_to_map secRefs = .error e) :
    reformat_references body secRefs refs = .error e := by
  unfold reformat_references
  rw [h1]

lemma reformat_error_rep (body : List Char) (secRefs refs : List (List Char))
    (secMap : List (List Char × Int)) (e : Unit)
    (h1 : convert_ref_list_to_map secRefs = .ok secMap)
    (h2 : convert_ref_list_to_map refs = .error e) :
    reformat_references body secRefs refs = .error e := by
  unfold reformat_references
  rw [h1, h2]

lemma goodRefs_nil : GoodRefs [] :=
  ⟨[], List.nodup_nil, fun u hu => absurd hu (List.not_mem_nil u), rfl⟩

lemma reformat_preserves_good (body : List Char) (secRefs refs : List (List Char))
    (b' : List Char) (refs' : List (List Char)) (hg : GoodRefs refs)
    (h : reformat_references body secRefs refs = .ok (b', refs')) :
    GoodRefs refs' ∧ ∃ ext, refs' = refs ++ ext := by
  obtain ⟨urls, hnd, hst, rfl⟩ := hg
  rcases hsec : convert_ref_list_to_map secRefs with e | secMap
  · rw [reformat_error_sec body secRefs _ e hsec] at h
    exact absurd h (by simp)
  · have hrep := convert_numberedRefs urls hnd hst
    rw [reformat_eq body secRefs _ secMap _ hsec hrep, dictMax0_mapOfUrls] at h
    obtain ⟨hkeys, hstall⟩ := convertGo_props secRefs [] secMap
      (by unfold convert_ref_list_to_map at hsec; exact hsec) (by simp) (by simp)
    obtain ⟨more, hr1, hr2, hr3, _⟩ := consolidate_spec secMap urls [] []
      (by simpa using hnd)
      (by intro u hu; exact hst u (by simpa using hu))
      hstall (by simp) hkeys
    simp only [List.append_nil, List.length_nil, Nat.add_zero] at hr1 hr2 hr3
    have hxy : (subMGo (consolidate secMap (mapOfUrls 0 urls) [] (numberedRefs 0 urls)
        (Int.ofNat urls.length)).1 .scan body,
        (consolidate secMap (mapOfUrls 0 urls) [] (numberedRefs 0 urls)
          (Int.ofNat urls.length)).2.1) = (b', refs') := by
      injection h
    have hrefs : refs' = numberedRefs 0 (urls ++ more) := by
      rw [← (Prod.mk.injEq _ _ _ _ |>.mp hxy).2]
      exact hr1
    constructor
    · refine ⟨urls ++ more, hr2, ?_, hrefs⟩
      intro u hu
      rcases List.mem_append.mp hu with h' | h'
      · exact hst u h'
      · exact hr3 u h'
    · refine ⟨numberedRefs (0 + urls.length) more, ?_⟩
      rw [hrefs, numberedRefs_append]

lemma runConsolidation_good (calls : List (List Char × List (List Char))) :
    ∀ (refs res : List (List Char)), GoodRefs refs →
      runConsolidation calls refs = .ok res →
      GoodRefs res ∧ ∃ ext, res = refs ++ ext := by
  induction calls with
  | nil =>
    intro refs res hg h
    have : refs = res := by injection h
    subst this
    exact ⟨hg, [], by simp⟩
  | cons c rest ih =>
    obtain ⟨body, srefs⟩ := c
    intro refs res hg h
    unfold runConsolidation at h
    rcases hr : reformat_references body srefs refs with e | ⟨b, refs1⟩
    · rw [hr] at h
      exact absurd h (by simp)
    · rw [hr] at h
      have h2 : runConsolidation rest refs1 = .ok res := h
      obtain ⟨hg1, ext1, hext1⟩ := reformat_preserves_good body srefs refs b refs1 hg hr
      obtain ⟨hgres, ext2, hext2⟩ := ih refs1 res hg1 h2
      refine ⟨hgres, ext1 ++ ext2, ?_⟩
      rw [hext2, hext1, List.append_assoc]

lemma runConsolidation_cons (body : List Char) (srefs : List (List Char))
    (rest : List (List Char × List (List Char))) (refs : List (List Char)) :
    runConsolidation ((body, srefs) :: rest) refs =
      match reformat_references body srefs refs with
      | .error e => .error e
      | .ok (_, refs') => runConsolidation rest refs' := rfl

lemma runConsolidation_append (c1 c2 : List (List Char × List (List Char))) :
    ∀ refs, runConsolidation (c1 ++ c2) refs =
      match runConsolidation c1 refs with
      | .error e => .error e
      | .ok r => runConsolidation c2 r := by
  induction c1 with
  | nil => intro refs; rfl
  | cons c rest ih =>
    obtain ⟨body, srefs⟩ := c
    intro refs
    rw [List.cons_append, runConsolidation_cons, runConsolidation_cons]
    rcases hr : reformat_references body srefs refs with e | ⟨b, refs1⟩
    · rfl
    · exact ih refs1

end ReformatLemmas

/-- Claim C1: starting from an empty global reference list, any sequence of
consolidation calls yields a global list whose entries number pairwise distinct
locators consecutively from 1 (so each newly assigned number is one more than
the current maximum, numbers strictly increase in order of assignment, and no
number is shared by two locators), and any earlier state of the list is a
prefix of any later state (numbers are never reassigned). -/
theorem monotonic_numbering (calls calls2 : List (List Char × List (List Char)))
    (refs1 refs2 : List (List Char))
    (h1 : runConsolidation calls [] = .ok refs1)
    (h2 : runConsolidation (calls ++ calls2) [] = .ok refs2) :
    (∃ ext, refs2 = refs1 ++ ext) ∧
      ∃ urls : List (List Char), urls.Nodup ∧ refs2 = numberedRefs 0 urls := by
  have hg1 := runConsolidation_good calls [] refs1 goodRefs_nil h1
  have heq := runConsolidation_append calls calls2 []
  rw [h1, h2] at heq
  have hrun2 : runConsolidation calls2 refs1 = .ok refs2 := heq.symm
  obtain ⟨hgood2, ext, hext⟩ := runConsolidation_good calls2 refs1 refs2 hg1.1 hrun2
  obtain ⟨urls, hnd, _, hshape⟩ := hgood2
  exact ⟨⟨ext, hext⟩, urls, hnd, hshape⟩

/-- Witness for C1 at a concrete pair of consolidation sequences. -/
theorem monotonic_numbering_witness :
    runConsolidation [(str "x[1] y", [str "[1] a"])] [] = .ok [str "[1] a"] ∧
      runConsolidation
        ([(str "x[1] y", [str "[1] a"])] ++ [(str "", [str "[1] b", str "[2] a"])]) [] =
        .ok [str "[1] a", str "[2] b"] ∧
      ((∃ ext, [str "[1] a", str "[2] b"] = [str "[1] a"] ++ ext) ∧
        ∃ urls : List (List Char), urls.Nodup ∧
          [str "[1] a", str "[2] b"] = numberedRefs 0 urls) :=
  ⟨rfl, rfl, monotonic_numbering [(str "x[1] y", [str "[1] a"])]
    [(str "", [str "[1] b", str "[2] a"])] [str "[1] a"] [str "[1] a", str "[2] b"] rfl rfl⟩

/-- Claim C4 (refuted by the code): for the entry `[3` — a leading bracketed
integer with no closing bracket — the integer parse succeeds, so the
`except ValueError` guard does not fire, and `ref.split(']', 1)[1]` raises an
uncaught `IndexError`; consolidation aborts instead of skipping the entry.  The
embedding evaluates to the error outcome at this failing input. -/
theorem malformed_entry_crashes :
    parseRef (str "[3") = .indexError ∧
      convert_ref_list_to_map [str "[3"] = .error () ∧
      reformat_references (str "body [1]") [str "[3"] [] = .error () ∧
      reformat_references (str "b") [str "abc"] [] = .ok (str "b", []) :=
  ⟨rfl, rfl, rfl, rfl⟩

/-- Claim C8: the controller dispatches at most 3 tasks per batch: the
dispatched batch is a prefix of the planned tasks of length `min 3 n`, so a
7-task plan is truncated to 3. -/
theorem batch_cap (plan : AgentSelectionPlan) :
    (dispatchBatch plan).length = min 3 plan.tasks.length ∧
      (dispatchBatch plan).length ≤ 3 ∧
      ∃ rest, plan.tasks = dispatchBatch plan ++ rest := by
  refine ⟨?_, ?_, ⟨plan.tasks.drop 3, (List.take_append_drop 3 plan.tasks).symm⟩⟩
  · show (plan.tasks.take 3).length = min 3 plan.tasks.length
    rw [List.length_take]
  · show (plan.tasks.take 3).length ≤ 3
    rw [List.length_take]
    omega

section SaturationLemmas

lemma parsedLocs_cons_ok (r : List Char) (rs : List (List Char)) (n : Int) (u : List Char)
    (hp : parseRef r = .ok n u) : parsedLocs (r :: rs) = u :: parsedLocs rs := by
  unfold parsedLocs
  rw [List.filterMap_cons]
  rw [show entryLoc r = some u from by unfold entryLoc; rw [hp]]

lemma parsedLocs_cons_fail (r : List Char) (rs : List (List Char))
    (hp : entryLoc r = none) : parsedLocs (r :: rs) = parsedLocs rs := by
  unfold parsedLocs
  rw [List.filterMap_cons, hp]

lemma convertGo_keys_sub (l : List (List Char)) :
    ∀ acc m, convertGo l acc = .ok m →
      ∀ k ∈ m.map Prod.fst, k ∈ acc.map Prod.fst ∨ k ∈ parsedLocs l := by
  induction l with
  | nil =>
    intro acc m h k hk
    have : acc = m := by injection h
    subst this
    exact Or.inl hk
  | cons r rs ih =>
    intro acc m h k hk
    unfold convertGo at h
    cases hp : parseRef r with
    | ok n u =>
      rw [hp] at h
      rcases ih (dinsert acc u n) m h k hk with h' | h'
      · rcases (mem_keys_dinsert acc u k n).mp h' with rfl | h''
        · right
          rw [parsedLocs_cons_ok r rs n k hp]
          exact List.mem_cons_self _ _
        · exact Or.inl h''
      · right
        rw [parsedLocs_cons_ok r rs n u hp]
        exact List.mem_cons_of_mem u h'
    | valueError =>
      rw [hp] at h
      rcases ih acc m h k hk with h' | h'
      · exact Or.inl h'
      · right
        rw [parsedLocs_cons_fail r rs (by unfold entryLoc; rw [hp])]
        exact h'
    | indexError =>
      rw [hp] at h
      exact absurd h (by simp)

lemma convertGo_keys_sup (l : List (List Char)) :
    ∀ acc m, convertGo l acc = .ok m →
      (∀ k ∈ acc.map Prod.fst, k ∈ m.map Prod.fst) ∧
        (∀ k ∈ parsedLocs l, k ∈ m.map Prod.fst) := by
  induction l with
  | nil =>
    intro acc m h
    have : acc = m := by injection h
    subst this
    exact ⟨fun k hk => hk, by simp [parsedLocs]⟩
  | cons r rs ih =>
    intro acc m h
    unfold convertGo at h
    cases hp : parseRef r with
    | ok n u =>
      rw [hp] at h
      obtain ⟨hacc, hlocs⟩ := ih (dinsert acc u n) m h
      constructor
      · intro k hk
        exact hacc k ((mem_keys_dinsert acc u k n).mpr (Or.inr hk))
      · intro k hk
        rw [parsedLocs_cons_ok r rs n u hp] at hk
        rcases List.mem_cons.mp hk with rfl | hk'
        · exact hacc k ((mem_keys_dinsert acc k k n).mpr (Or.inl rfl))
        · exact hlocs k hk'
    | valueError =>
      rw [hp] at h
      obtain ⟨hacc, hlocs⟩ := ih acc m h
      refine ⟨hacc, ?_⟩
      intro k hk
      rw [parsedLocs_cons_fail r rs (by unfold entryLoc; rw [hp])] at hk
      exact hlocs k hk
    | indexError =>
      rw [hp] at h
      exact absurd h (by simp)

lemma dfind_some_mem {α β : Type} [DecidableEq α] (m : List (α × β)) (k : α)
    (q : α × β) (h : dfind m k = some q) : q ∈ m ∧ q.1 = k := by
  refine ⟨List.mem_of_find?_eq_some h, ?_⟩
  have := List.find?_some h
  simpa using this

lemma dfind_isSome_of_mem_keys {α β : Type} [DecidableEq α] (m : List (α × β)) (k : α)
    (h : k ∈ m.map Prod.fst) : (dfind m k).isSome := by
  induction m with
  | nil => simp at h
  | cons p ps ih =>
    rw [dfind_cons]
    by_cases hp : p.1 = k
    · rw [if_pos hp]
      rfl
    · rw [if_neg hp]
      apply ih
      rw [List.map_cons] at h
      rcases List.mem_cons.mp h with h' | h'
      · exact absurd h'.symm hp
      · exact h'

lemma dfind_none_of_not_mem_keys {α β : Type} [DecidableEq α] (m : List (α × β)) (k : α)
    (h : k ∉ m.map Prod.fst) : dfind m k = none := by
  rcases hf : dfind m k with _ | q
  · rfl
  · exact absurd ((dfind_some_mem m k q hf).2 ▸
      List.mem_map_of_mem Prod.fst (dfind_some_mem m k q hf).1) h

lemma consolidate_refs_unchanged (sec : List (List Char × Int)) :
    ∀ (repMap : List (List Char × Int)) (s2r : List (Int × Int))
      (refs : List (List Char)) (cnt : Int),
      (∀ p ∈ sec, (dfind repMap p.1).isSome) →
      (consolidate sec repMap s2r refs cnt).2.1 = refs ∧
        (consolidate sec repMap s2r refs cnt).2.2 = cnt := by
  induction sec with
  | nil => intro repMap s2r refs cnt _; exact ⟨rfl, rfl⟩
  | cons p rest ih =>
    obtain ⟨u, n⟩ := p
    intro repMap s2r refs cnt hall
    rcases hf : dfind repMap u with _ | q
    · have := hall (u, n) (List.mem_cons_self _ _)
      rw [hf] at this
      exact absurd this (by simp)
    · rw [consolidate_cons_found u n rest repMap s2r refs cnt q hf]
      exact ih repMap (dinsert s2r n q.2) refs cnt
        (fun p hp => hall p (List.mem_cons_of_mem _ hp))

lemma consolidate_s2r_keys (sec : List (List Char × Int)) :
    ∀ (repMap : List (List Char × Int)) (s2r : List (Int × Int))
      (refs : List (List Char)) (cnt : Int) (k : Int),
      k ∈ (consolidate sec repMap s2r refs cnt).1.map Prod.fst →
      k ∈ s2r.map Prod.fst ∨ k ∈ sec.map Prod.snd := by
  induction sec with
  | nil =>
    intro repMap s2r refs cnt k hk
    exact Or.inl hk
  | cons p rest ih =>
    obtain ⟨u, n⟩ := p
    intro repMap s2r refs cnt k hk
    rcases hf : dfind repMap u with _ | q
    · rw [consolidate_cons_new u n rest repMap s2r refs cnt hf] at hk
      rcases ih repMap (dinsert s2r n (cnt + 1)) _ (cnt + 1) k hk with h' | h'
      · rcases (mem_keys_dinsert s2r n k (cnt + 1)).mp h' with rfl | h''
        · right
          exact List.mem_cons_self _ _
        · exact Or.inl h''
      · right
        exact List.mem_cons_of_mem _ h'
    · rw [consolidate_cons_found u n rest repMap s2r refs cnt q hf] at hk
      rcases ih repMap (dinsert s2r n q.2) refs cnt k hk with h' | h'
      · rcases (mem_keys_dinsert s2r n k q.2).mp h' with rfl | h''
        · right
          exact List.mem_cons_self _ _
        · exact Or.inl h''
      · right
        exact List.mem_cons_of_mem _ h'

lemma replace_reference_none (s2r : List (Int × Int)) (n : Nat)
    (hn : dfind s2r (n : Int) = none) : replace_reference s2r n = [] := by
  unfold replace_reference
  rw [hn]

end SaturationLemmas

/-- Claim C3: consolidation is idempotent against a saturated global list: if
every locator occurring in `section_refs` already occurs in the global list,
`reformat_references` succeeds and returns the global list unchanged (nothing
appended, no number changed), and threading the returned list into a second
call with the same section inputs returns the byte-identical rewritten body
and the same list again. -/
theorem idempotent_consolidation (body : List Char) (secRefs refs : List (List Char))
    (secMap repMap : List (List Char × Int))
    (h1 : convert_ref_list_to_map secRefs = .ok secMap)
    (h2 : convert_ref_list_to_map refs = .ok repMap)
    (hsat : ∀ L ∈ parsedLocs secRefs, L ∈ parsedLocs refs) :
    ∃ b, reformat_references body secRefs refs = .ok (b, refs) ∧
      (reformat_references body secRefs refs).bind
        (fun pr => reformat_references body secRefs pr.2) = .ok (b, refs) := by
  have hsub : ∀ p ∈ secMap, (dfind repMap p.1).isSome := by
    intro p hp
    apply dfind_isSome_of_mem_keys
    have h1' : convertGo secRefs [] = .ok secMap := by
      unfold convert_ref_list_to_map at h1
      exact h1
    have h2' : convertGo refs [] = .ok repMap := by
      unfold convert_ref_list_to_map at h2
      exact h2
    rcases convertGo_keys_sub secRefs [] secMap h1' p.1
        (List.mem_map_of_mem Prod.fst hp) with h' | h'
    · simp at h'
    · exact (convertGo_keys_sup refs [] repMap h2').2 p.1 (hsat p.1 h')
  obtain ⟨hrefs, _⟩ := consolidate_refs_unchanged secMap repMap []
    refs (dictMax0 (repMap.map Prod.snd)) hsub
  have hcall : reformat_references body secRefs refs =
      .ok (subMGo (consolidate secMap repMap [] refs
        (dictMax0 (repMap.map Prod.snd))).1 .scan body, refs) := by
    rw [reformat_eq body secRefs refs secMap repMap h1 h2, hrefs]
  refine ⟨_, hcall, ?_⟩
  rw [hcall]
  exact hcall

/-- Witness for C3: a body and section list consolidated against a global list
already containing its locator. -/
theorem idempotent_consolidation_witness :
    convert_ref_list_to_map [str "[1] u"] = .ok [(str "u", 1)] ∧
      (∀ L ∈ parsedLocs [str "[1] u"], L ∈ parsedLocs [str "[1] u"]) ∧
      ∃ b, reformat_references (str "a[1]") [str "[1] u"] [str "[1] u"] =
          .ok (b, [str "[1] u"]) ∧
        (reformat_references (str "a[1]") [str "[1] u"] [str "[1] u"]).bind
          (fun pr => reformat_references (str "a[1]") [str "[1] u"] pr.2) =
          .ok (b, [str "[1] u"]) :=
  ⟨rfl, fun L hL => hL,
    idempotent_consolidation (str "a[1]") [str "[1] u"] [str "[1] u"]
      [(str "u", 1)] [(str "u", 1)] rfl rfl (fun L hL => hL)⟩

/-- Claim C5: a bracketed marker whose number has no entry in the
local-to-global map built from `section_refs` is replaced by the empty string,
and no failure is raised: with parsable reference lists the call returns `ok`
with the body rewritten by the marker scanner, whose replacement function sends
every unmapped number (in particular every number when `section_refs` is empty)
to the empty string. -/
theorem dangling_marker_deleted (body : List Char) (secRefs refs : List (List Char))
    (secMap repMap : List (List Char × Int)) (n : Nat)
    (h1 : convert_ref_list_to_map secRefs = .ok secMap)
    (h2 : convert_ref_list_to_map refs = .ok repMap)
    (hn : (n : Int) ∉ secMap.map Prod.snd) :
    ∃ s2r refs', reformat_references body secRefs refs =
        .ok (subMGo s2r .scan body, refs') ∧ replace_reference s2r n = [] := by
  refine ⟨(consolidate secMap repMap [] refs (dictMax0 (repMap.map Prod.snd))).1, _,
    reformat_eq body secRefs refs secMap repMap h1 h2, ?_⟩
  apply replace_reference_none
  apply dfind_none_of_not_mem_keys
  intro hk
  rcases consolidate_s2r_keys secMap repMap [] refs
      (dictMax0 (repMap.map Prod.snd)) (n : Int) hk with h' | h'
  · simp at h'
  · exact hn h'

/-- Witness for C5: the spec's example, body `See [5] for details` with the
empty reference list, evaluates to `See  for details` with no failure. -/
theorem dangling_marker_deleted_witness :
    ((5 : Nat) : Int) ∉ ([] : List (List Char × Int)).map Prod.snd ∧
      (∃ s2r refs', reformat_references (str "See [5] for details") [] [] =
          .ok (subMGo s2r .scan (str "See [5] for details"), refs') ∧
        replace_reference s2r 5 = []) ∧
      reformat_references (str "See [5] for details") [] [] =
        .ok (str "See  for details", []) :=
  ⟨by simp, dangling_marker_deleted (str "See [5] for details") [] [] [] [] 5
    rfl rfl (by simp), rfl⟩

section LastWinsLemmas

lemma lastNumFor_cons (L r : List Char) (rs : List (List Char)) :
    lastNumFor L (r :: rs) =
      match lastNumFor L rs with
      | some n => some n
      | none =>
        match parseRef r with
        | .ok n u => if u = L then some n else none
        | _ => none := rfl

lemma dfind_convertGo_last (l : List (List Char)) :
    ∀ (acc m : List (List Char × Int)) (L : List Char), convertGo l acc = .ok m →
      dfind m L =
        match lastNumFor L l with
        | some n => some (L, n)
        | none => dfind acc L := by
  induction l with
  | nil =>
    intro acc m L h
    have : acc = m := by injection h
    subst this
    rfl
  | cons r rs ih =>
    intro acc m L h
    unfold convertGo at h
    rw [lastNumFor_cons]
    cases hp : parseRef r with
    | ok n u =>
      rw [hp] at h
      rw [ih (dinsert acc u n) m L h]
      rcases hlast : lastNumFor L rs with _ | n2
      · by_cases hu : u = L
        · subst hu
          show dfind (dinsert acc u n) u =
            match (if u = u then some n else none : Option Int) with
            | some n => some (u, n)
            | none => dfind acc u
          rw [if_pos rfl]
          exact dfind_dinsert_self acc u n
        · show dfind (dinsert acc u n) L =
            match (if u = L then some n else none : Option Int) with
            | some n => some (L, n)
            | none => dfind acc L
          rw [if_neg hu]
          exact dfind_dinsert_ne acc u L n (fun hc => hu hc.symm)
      · rfl
    | valueError =>
      rw [hp] at h
      rw [ih acc m L h]
      rcases lastNumFor L rs with _ | n2 <;> rfl
    | indexError =>
      rw [hp] at h
      exact absurd h (by simp)

end LastWinsLemmas

/-- Claim C9: when the same locator appears twice in one section's reference
list under two different local numbers, the dictionary built by
`convert_ref_list_to_map` keeps only the last local number for that locator,
and — the earlier number being absent from the local-to-global map — every
in-text marker carrying the earlier number is deleted from the rewritten body
rather than mapped to the locator's global number. -/
theorem duplicate_locator_last_wins (body : List Char)
    (secRefs refs : List (List Char)) (secMap repMap : List (List Char × Int))
    (L : List Char) (n1 n2 : Int)
    (h1 : convert_ref_list_to_map secRefs = .ok secMap)
    (h2 : convert_ref_list_to_map refs = .ok repMap)
    (he : ∃ r ∈ secRefs, parseRef r = .ok n1 L)
    (hlast : lastNumFor L secRefs = some n2)
    (hne : n1 ≠ n2)
    (hn1 : n1 ∉ secMap.map Prod.snd) :
    dfind secMap L = some (L, n2) ∧
      ∃ s2r refs', reformat_references body secRefs refs =
          .ok (subMGo s2r .scan body, refs') ∧
        ∀ k : Nat, (k : Int) = n1 → replace_reference s2r k = [] := by
  have h1' : convertGo secRefs [] = .ok secMap := by
    unfold convert_ref_list_to_map at h1
    exact h1
  constructor
  · rw [dfind_convertGo_last secRefs [] secMap L h1', hlast]
  · refine ⟨(consolidate secMap repMap [] refs (dictMax0 (repMap.map Prod.snd))).1, _,
      reformat_eq body secRefs refs secMap repMap h1 h2, ?_⟩
    intro k hk
    apply replace_reference_none
    apply dfind_none_of_not_mem_keys
    intro hmem
    rcases consolidate_s2r_keys secMap repMap [] refs
        (dictMax0 (repMap.map Prod.snd)) (k : Int) hmem with h' | h'
    · simp at h'
    · rw [hk] at h'
      exact hn1 h'

/-- Witness for C9: locator `L` listed under local numbers 1 and 2; the body
marker `[1]` is deleted while `[2]` resolves to the single global entry. -/
theorem duplicate_locator_last_wins_witness :
    lastNumFor (str "L") [str "[1] L", str "[2] L"] = some 2 ∧
      (dfind [(str "L", (2 : Int))] (str "L") = some (str "L", 2) ∧
        ∃ s2r refs', reformat_references (str "a[1]b[2]")
            [str "[1] L", str "[2] L"] [] = .ok (subMGo s2r .scan (str "a[1]b[2]"), refs') ∧
          ∀ k : Nat, (k : Int) = 1 → replace_reference s2r k = []) ∧
      reformat_references (str "a[1]b[2]") [str "[1] L", str "[2] L"] [] =
        .ok (str "ab[1]", [str "[1] L"]) :=
  ⟨rfl,
    duplicate_locator_last_wins (str "a[1]b[2]") [str "[1] L", str "[2] L"] []
      [(str "L", 2)] [] (str "L") 1 2 rfl rfl
      ⟨str "[1] L", by simp, by decide⟩ rfl (by decide) (by decide),
    rfl⟩

section HeadingLemmas

lemma subHGo_hashes (m : Nat) : ∀ (j : Nat) (r : List Char) (adj : Int),
    subHGo adj (.hashes j) (mkHashes m ++ r) = subHGo adj (.hashes (j + m)) r := by
  induction m with
  | zero => intro j r adj; rfl
  | succ m ih =>
    intro j r adj
    rw [show mkHashes (m + 1) = '#' :: mkHashes m from rfl, List.cons_append]
    show subHGo adj (.hashes (j + 1)) (mkHashes m ++ r) = _
    rw [ih (j + 1) r adj]
    congr 2
    omega

lemma searchHeading_hashes (m : Nat) : ∀ (j : Nat) (r : List Char),
    searchHeading (.hashes j) (mkHashes m ++ r) = searchHeading (.hashes (j + m)) r := by
  induction m with
  | zero => intro j r; rfl
  | succ m ih =>
    intro j r
    rw [show mkHashes (m + 1) = '#' :: mkHashes m from rfl, List.cons_append]
    show searchHeading (.hashes (j + 1)) (mkHashes m ++ r) = _
    rw [ih (j + 1) r]
    congr 2
    omega

lemma subHGo_content (cs : List Char) : ∀ (k : Nat) (w : Char) (acc r : List Char) (adj : Int),
    (∀ c ∈ cs, c ≠ '\n') →
    subHGo adj (.content k w acc) (cs ++ r) = subHGo adj (.content k w (cs.reverse ++ acc)) r := by
  induction cs with
  | nil => intro k w acc r adj _; rfl
  | cons c cs ih =>
    intro k w acc r adj h
    rw [List.cons_append]
    show (if c = '\n' then _ else subHGo adj (.content k w (c :: acc)) (cs ++ r)) = _
    rw [if_neg (h c (List.mem_cons_self c cs))]
    rw [ih k w (c :: acc) r adj (fun x hx => h x (List.mem_cons_of_mem c hx))]
    congr 1
    simp

lemma subHGo_plain (cs : List Char) : ∀ (r : List Char) (adj : Int),
    (∀ c ∈ cs, c ≠ '\n') →
    subHGo adj .plain (cs ++ r) = cs ++ subHGo adj .plain r := by
  induction cs with
  | nil => intro r adj _; rfl
  | cons c cs ih =>
    intro r adj h
    rw [List.cons_append]
    show c :: subHGo adj (if c = '\n' then HeadState.lineStart else HeadState.plain) (cs ++ r) = _
    rw [if_neg (h c (List.mem_cons_self c cs)),
      ih r adj (fun x hx => h x (List.mem_cons_of_mem c hx))]
    rfl

lemma searchHeading_skip (cs : List Char) : ∀ (r : List Char),
    (∀ c ∈ cs, c ≠ '\n') →
    searchHeading .skip (cs ++ r) = searchHeading .skip r := by
  induction cs with
  | nil => intro r _; rfl
  | cons c cs ih =>
    intro r h
    rw [List.cons_append]
    show searchHeading (if c = '\n' then SearchState.lineStart else SearchState.skip) (cs ++ r) = _
    rw [if_neg (h c (List.mem_cons_self c cs)),
      ih r (fun x hx => h x (List.mem_cons_of_mem c hx))]

lemma properLine_parts (l : List Char) (hl : properLine l = true) :
    (∀ c ∈ l, c ≠ '\n') ∧
      (l.head? = some '#' →
        ∃ k c0 cs0, 1 ≤ k ∧ l.takeWhile (· = '#') = mkHashes k ∧
          l.dropWhile (· = '#') = ' ' :: c0 :: cs0 ∧
          l = mkHashes k ++ ' ' :: c0 :: cs0 ∧
          k = (l.takeWhile (· = '#')).length) := by
  unfold properLine at hl
  rw [Bool.and_eq_true] at hl
  obtain ⟨hnl, hrest⟩ := hl
  have hnl2 : ∀ c ∈ l, c ≠ '\n' := by
    intro c hc
    have := List.all_eq_true.mp hnl c hc
    simpa using this
  refine ⟨hnl2, ?_⟩
  intro hh
  rw [if_pos hh, Bool.and_eq_true, decide_eq_true_eq, decide_eq_true_eq] at hrest
  obtain ⟨hsp, hlen⟩ := hrest
  rcases ht : l.dropWhile (· = '#') with _ | ⟨w, t1⟩
  · rw [ht] at hsp
    exact absurd hsp (by simp)
  · rw [ht] at hsp hlen
    simp only [List.head?_cons, Option.some.injEq] at hsp
    subst hsp
    rcases t1 with _ | ⟨c0, cs0⟩
    · simp at hlen
    · have htake : l.takeWhile (· = '#') =
          List.replicate (l.takeWhile (· = '#')).length '#' := by
        rw [List.eq_replicate_iff]
        exact ⟨rfl, fun b hb => by simpa using List.mem_takeWhile_imp hb⟩
      have hpos : 1 ≤ (l.takeWhile (· = '#')).length := by
        rcases hll : l with _ | ⟨c1, l1⟩
        · rw [hll] at hh
          exact absurd hh (by simp)
        · rw [hll] at hh
          simp only [List.head?_cons, Option.some.injEq] at hh
          subst hh
          rw [List.takeWhile_cons]
          simp
      have hdecomp : l = mkHashes (l.takeWhile (· = '#')).length ++ ' ' :: c0 :: cs0 := by
        conv_lhs => rw [← List.takeWhile_append_dropWhile (p := fun c => decide (c = '#')) (l := l)]
        rw [ht]
        congr 1
      exact ⟨(l.takeWhile (· = '#')).length, c0, cs0, hpos, htake, rfl, hdecomp, rfl⟩

end HeadingLemmas

section HeadingLineLemmas

lemma subHGo_lineStart_cons (adj : Int) (c : Char) (t : List Char) :
    subHGo adj .lineStart (c :: t) =
      if c = '#' then subHGo adj (.hashes 1) t
      else if c = '\n' then '\n' :: subHGo adj .lineStart t
      else c :: subHGo adj .plain t := rfl

lemma subHGo_hashes_cons (adj : Int) (k : Nat) (c : Char) (t : List Char) :
    subHGo adj (.hashes k) (c :: t) =
      if c = '#' then subHGo adj (.hashes (k + 1)) t
      else if isPySpace c then subHGo adj (.ws k c) t
      else mkHashes k ++ c :: subHGo adj .plain t := rfl

lemma subHGo_ws_cons (adj : Int) (k : Nat) (w c : Char) (t : List Char) :
    subHGo adj (.ws k w) (c :: t) =
      if c = '\n' then mkHashes k ++ w :: '\n' :: subHGo adj .lineStart t
      else subHGo adj (.content k w [c]) t := rfl

lemma subHGo_content_cons (adj : Int) (k : Nat) (w : Char) (acc : List Char) (c : Char)
    (t : List Char) :
    subHGo adj (.content k w acc) (c :: t) =
      if c = '\n' then
        mkHashes (newLevel k adj) ++ ' ' :: acc.reverse ++ '\n' :: subHGo adj .lineStart t
      else subHGo adj (.content k w (c :: acc)) t := rfl

lemma subHGo_plain_cons (adj : Int) (c : Char) (t : List Char) :
    subHGo adj .plain (c :: t) =
      c :: subHGo adj (if c = '\n' then .lineStart else .plain) t := rfl

lemma searchHeading_lineStart_cons (c : Char) (t : List Char) :
    searchHeading .lineStart (c :: t) =
      if c = '#' then searchHeading (.hashes 1) t
      else searchHeading (if c = '\n' then .lineStart else .skip) t := rfl

lemma searchHeading_hashes_cons (k : Nat) (c : Char) (t : List Char) :
    searchHeading (.hashes k) (c :: t) =
      if c = '#' then searchHeading (.hashes (k + 1)) t
      else if isPySpace c then some k
      else searchHeading (if c = '\n' then .lineStart else .skip) t := rfl

lemma searchHeading_skip_cons (c : Char) (t : List Char) :
    searchHeading .skip (c :: t) =
      searchHeading (if c = '\n' then .lineStart else .skip) t := rfl

lemma rewriteLine_heading (adj : Int) (l : List Char) (k : Nat) (c0 : Char) (cs0 : List Char)
    (hh : l.head? = some '#') (htake : l.takeWhile (· = '#') = mkHashes k)
    (hdrop : l.dropWhile (· = '#') = ' ' :: c0 :: cs0) :
    rewriteLine adj l = mkHashes (newLevel k adj) ++ ' ' :: c0 :: cs0 := by
  rw [rewriteLine, if_pos hh, hdrop, htake]
  rw [show (mkHashes k).length = k from List.length_replicate ..]

lemma rewriteLine_other (adj : Int) (l : List Char) (hh : ¬(l.head? = some '#')) :
    rewriteLine adj l = l := by
  rw [rewriteLine, if_neg hh]

lemma revacc (c0 : Char) (cs0 : List Char) : (cs0.reverse ++ [c0]).reverse = c0 :: cs0 := by
  rw [List.reverse_append, List.reverse_reverse]
  rfl

lemma subHGo_content_nil (adj : Int) (k : Nat) (w : Char) (acc : List Char) :
    subHGo adj (.content k w acc) [] = mkHashes (newLevel k adj) ++ ' ' :: acc.reverse := rfl

lemma subHGo_heading_segment (adj : Int) (k : Nat) (hk : 1 ≤ k) (c0 : Char) (cs0 : List Char)
    (hc0 : c0 ≠ '\n') (hcs0 : ∀ c ∈ cs0, c ≠ '\n') (t : List Char) :
    subHGo adj .lineStart (mkHashes k ++ ((' ' :: c0 :: cs0) ++ t)) =
      subHGo adj (.content k ' ' (cs0.reverse ++ [c0])) t := by
  rcases k with _ | k2
  · omega
  · rw [show mkHashes (k2 + 1) = '#' :: mkHashes k2 from rfl, List.cons_append,
      subHGo_lineStart_cons, if_pos rfl, subHGo_hashes k2 1 _ adj,
      show ((' ' :: c0 :: cs0) ++ t) = ' ' :: (c0 :: (cs0 ++ t)) from rfl,
      subHGo_hashes_cons, if_neg (by decide), if_pos (by decide),
      subHGo_ws_cons, if_neg hc0,
      subHGo_content cs0 (1 + k2) ' ' [c0] t adj hcs0,
      Nat.add_comm 1 k2]

lemma searchHeading_heading_segment (k : Nat) (hk : 1 ≤ k) (c0 : Char) (cs0 : List Char)
    (t : List Char) :
    searchHeading .lineStart (mkHashes k ++ ((' ' :: c0 :: cs0) ++ t)) = some k := by
  rcases k with _ | k2
  · omega
  · rw [show mkHashes (k2 + 1) = '#' :: mkHashes k2 from rfl, List.cons_append,
      searchHeading_lineStart_cons, if_pos rfl, searchHeading_hashes k2 1 _,
      show ((' ' :: c0 :: cs0) ++ t) = ' ' :: (c0 :: (cs0 ++ t)) from rfl,
      searchHeading_hashes_cons, if_neg (by decide), if_pos (by decide),
      Nat.add_comm 1 k2]

lemma subHGo_line (l : List Char) (hl : properLine l = true) (r : List Char) (adj : Int) :
    subHGo adj .lineStart (l ++ '\n' :: r) =
      rewriteLine adj l ++ '\n' :: subHGo adj .lineStart r := by
  obtain ⟨hnl, hshape⟩ := properLine_parts l hl
  by_cases hh : l.head? = some '#'
  · obtain ⟨k, c0, cs0, hk, htake, hdrop, hdecomp, _⟩ := hshape hh
    have hc0 : c0 ≠ '\n' := hnl c0 (by rw [hdecomp]; simp)
    have hcs0 : ∀ c ∈ cs0, c ≠ '\n' := fun c hc => hnl c (by rw [hdecomp]; simp [hc])
    rw [rewriteLine_heading adj l k c0 cs0 hh htake hdrop]
    conv_lhs => rw [hdecomp, List.append_assoc]
    rw [subHGo_heading_segment adj k hk c0 cs0 hc0 hcs0 ('\n' :: r),
      subHGo_content_cons, if_pos rfl, revacc]
  · rcases hll : l with _ | ⟨c1, l1⟩
    · subst hll
      rw [rewriteLine_other adj [] (by simp)]
      rfl
    · subst hll
      have hc1h : c1 ≠ '#' := fun hc => hh (by rw [hc]; rfl)
      have hc1n : c1 ≠ '\n' := hnl c1 (List.mem_cons_self c1 l1)
      rw [List.cons_append, subHGo_lineStart_cons, if_neg hc1h, if_neg hc1n,
        subHGo_plain l1 ('\n' :: r) adj
          (fun c hc => hnl c (List.mem_cons_of_mem c1 hc)),
        subHGo_plain_cons, if_pos rfl, rewriteLine_other adj (c1 :: l1) hh]
      rfl

lemma subHGo_line_last (l : List Char) (hl : properLine l = true) (adj : Int) :
    subHGo adj .lineStart l = rewriteLine adj l := by
  obtain ⟨hnl, hshape⟩ := properLine_parts l hl
  by_cases hh : l.head? = some '#'
  · obtain ⟨k, c0, cs0, hk, htake, hdrop, hdecomp, _⟩ := hshape hh
    have hc0 : c0 ≠ '\n' := hnl c0 (by rw [hdecomp]; simp)
    have hcs0 : ∀ c ∈ cs0, c ≠ '\n' := fun c hc => hnl c (by rw [hdecomp]; simp [hc])
    rw [rewriteLine_heading adj l k c0 cs0 hh htake hdrop]
    have hseg := subHGo_heading_segment adj k hk c0 cs0 hc0 hcs0 []
    rw [List.append_nil] at hseg
    conv_lhs => rw [hdecomp]
    rw [hseg, subHGo_content_nil, revacc]
  · rcases hll : l with _ | ⟨c1, l1⟩
    · subst hll
      rw [rewriteLine_other adj [] (by simp)]
      rfl
    · subst hll
      have hc1h : c1 ≠ '#' := fun hc => hh (by rw [hc]; rfl)
      have hc1n : c1 ≠ '\n' := hnl c1 (List.mem_cons_self c1 l1)
      rw [subHGo_lineStart_cons, if_neg hc1h, if_neg hc1n]
      have hpl := subHGo_plain l1 [] adj (fun c hc => hnl c (List.mem_cons_of_mem c1 hc))
      rw [List.append_nil] at hpl
      rw [hpl, show subHGo adj HeadState.plain ([] : List Char) = [] from rfl,
        List.append_nil, rewriteLine_other adj (c1 :: l1) hh]

lemma searchHeading_line (l : List Char) (hl : properLine l = true) (r : List Char) :
    searchHeading .lineStart (l ++ '\n' :: r) =
      if l.head? = some '#' then some (l.takeWhile (· = '#')).length
      else searchHeading .lineStart r := by
  obtain ⟨hnl, hshape⟩ := properLine_parts l hl
  by_cases hh : l.head? = some '#'
  · obtain ⟨k, c0, cs0, hk, htake, hdrop, hdecomp, hkdef⟩ := hshape hh
    rw [if_pos hh]
    conv_lhs => rw [hdecomp, List.append_assoc]
    rw [searchHeading_heading_segment k hk c0 cs0 ('\n' :: r), hkdef]
  · rw [if_neg hh]
    rcases hll : l with _ | ⟨c1, l1⟩
    · subst hll
      rfl
    · subst hll
      have hc1h : c1 ≠ '#' := fun hc => hh (by rw [hc]; rfl)
      have hc1n : c1 ≠ '\n' := hnl c1 (List.mem_cons_self c1 l1)
      rw [List.cons_append, searchHeading_lineStart_cons, if_neg hc1h, if_neg hc1n,
        searchHeading_skip l1 ('\n' :: r) (fun c hc => hnl c (List.mem_cons_of_mem c1 hc)),
        searchHeading_skip_cons, if_pos rfl]

lemma searchHeading_line_last (l : List Char) (hl : properLine l = true) :
    searchHeading .lineStart l =
      if l.head? = some '#' then some (l.takeWhile (· = '#')).length else none := by
  obtain ⟨hnl, hshape⟩ := properLine_parts l hl
  by_cases hh : l.head? = some '#'
  · obtain ⟨k, c0, cs0, hk, htake, hdrop, hdecomp, hkdef⟩ := hshape hh
    rw [if_pos hh]
    have hseg := searchHeading_heading_segment k hk c0 cs0 []
    rw [List.append_nil] at hseg
    conv_lhs => rw [hdecomp]
    rw [hseg, hkdef]
  · rw [if_neg hh]
    rcases hll : l with _ | ⟨c1, l1⟩
    · subst hll
      rfl
    · subst hll
      have hc1h : c1 ≠ '#' := fun hc => hh (by rw [hc]; rfl)
      have hc1n : c1 ≠ '\n' := hnl c1 (List.mem_cons_self c1 l1)
      rw [searchHeading_lineStart_cons, if_neg hc1h, if_neg hc1n]
      have hsk := searchHeading_skip l1 [] (fun c hc => hnl c (List.mem_cons_of_mem c1 hc))
      rw [List.append_nil] at hsk
      rw [hsk]
      rfl

end HeadingLineLemmas

section JoinLinesLemmas

lemma subHGo_joinLines (lines : List (List Char)) (adj : Int) :
    (∀ l ∈ lines, properLine l = true) →
    subHGo adj .lineStart (joinSep ['\n'] lines) =
      joinSep ['\n'] (lines.map (rewriteLine adj)) := by
  induction lines with
  | nil => intro _; rfl
  | cons l rest ih =>
    intro h
    rcases rest with _ | ⟨l2, ls⟩
    · show subHGo adj .lineStart l = joinSep ['\n'] [rewriteLine adj l]
      rw [subHGo_line_last l (h l (List.mem_cons_self l [])) adj]
      rfl
    · show subHGo adj .lineStart (l ++ ['\n'] ++ joinSep ['\n'] (l2 :: ls)) = _
      rw [List.append_assoc,
        show (['\n'] ++ joinSep ['\n'] (l2 :: ls)) = '\n' :: joinSep ['\n'] (l2 :: ls)
          from rfl,
        subHGo_line l (h l (List.mem_cons_self l (l2 :: ls))) (joinSep ['\n'] (l2 :: ls)) adj,
        ih (fun x hx => h x (List.mem_cons_of_mem l hx))]
      show _ = rewriteLine adj l ++ ['\n'] ++
        joinSep ['\n'] (rewriteLine adj l2 :: ls.map (rewriteLine adj))
      rw [List.append_assoc]
      rfl

lemma searchHeading_joinLines (lines : List (List Char)) :
    (∀ l ∈ lines, properLine l = true) →
    searchHeading .lineStart (joinSep ['\n'] lines) = firstHeadingLevel lines := by
  induction lines with
  | nil => intro _; rfl
  | cons l rest ih =>
    intro h
    rcases rest with _ | ⟨l2, ls⟩
    · show searchHeading .lineStart l = _
      rw [searchHeading_line_last l (h l (List.mem_cons_self l []))]
      rfl
    · show searchHeading .lineStart (l ++ ['\n'] ++ joinSep ['\n'] (l2 :: ls)) = _
      rw [List.append_assoc,
        show (['\n'] ++ joinSep ['\n'] (l2 :: ls)) = '\n' :: joinSep ['\n'] (l2 :: ls)
          from rfl,
        searchHeading_line l (h l (List.mem_cons_self l (l2 :: ls))) (joinSep ['\n'] (l2 :: ls)),
        ih (fun x hx => h x (List.mem_cons_of_mem l hx))]
      rfl

lemma mem_joinSep (c : Char) (l : List Char) (sep : List Char) (lines : List (List Char))
    (hc : c ∈ l) : ∀ hl : l ∈ lines, c ∈ joinSep sep lines := by
  induction lines with
  | nil => intro hl; exact absurd hl (List.not_mem_nil l)
  | cons x rest ih =>
    intro hl
    rcases rest with _ | ⟨x2, ls⟩
    · rcases List.mem_cons.mp hl with rfl | h'
      · exact hc
      · exact absurd h' (List.not_mem_nil l)
    · show c ∈ x ++ sep ++ joinSep sep (x2 :: ls)
      rcases List.mem_cons.mp hl with rfl | h'
      · exact List.mem_append.mpr (Or.inl (List.mem_append.mpr (Or.inl hc)))
      · exact List.mem_append.mpr (Or.inr (ih h'))

lemma firstHeadingLevel_some (lines : List (List Char)) (f : Nat) :
    firstHeadingLevel lines = some f → ∃ l ∈ lines, l.head? = some '#' := by
  induction lines with
  | nil => intro h; exact absurd h (by simp [firstHeadingLevel])
  | cons l rest ih =>
    intro h
    unfold firstHeadingLevel at h
    by_cases hh : l.head? = some '#'
    · exact ⟨l, List.mem_cons_self l rest, hh⟩
    · rw [if_neg hh] at h
      obtain ⟨l2, hl2, hh2⟩ := ih h
      exact ⟨l2, List.mem_cons_of_mem l hl2, hh2⟩

lemma joinLines_not_all_space (lines : List (List Char)) (f : Nat)
    (hf : firstHeadingLevel lines = some f) :
    (joinSep ['\n'] lines).all isPySpace = false := by
  obtain ⟨l, hl, hh⟩ := firstHeadingLevel_some lines f hf
  have hmem : '#' ∈ joinSep ['\n'] lines := by
    apply mem_joinSep '#' l ['\n'] lines ?_ hl
    rcases l with _ | ⟨c, t⟩
    · exact absurd hh (by simp)
    · simp only [List.head?_cons, Option.some.injEq] at hh
      subst hh
      exact List.mem_cons_self _ _
  cases hall : (joinSep ['\n'] lines).all isPySpace
  · rfl
  · have := List.all_eq_true.mp hall '#' hmem
    exact absurd this (by decide)

end JoinLinesLemmas

/-- Claim C6 (amended): for a body assembled from newline-joined lines in which
every line that begins with `#` consists of the hash run, a single space and at
least one further character (so the rewriting regex matches exactly within the
line), and which contains at least one such heading line, the rewrite sends
every heading line of level `k` to level `max 2 (k + (2 - f))` — `f` the level
of the first heading line — and leaves every other line unchanged.  (Without
that restriction the claim fails: when a hash run is followed directly by a
newline and a nonempty line, the regex `\s` matches the newline and the two
lines are merged, changing a non-heading line.) -/
theorem heading_rebase (lines : List (List Char)) (f : Nat)
    (hproper : ∀ l ∈ lines, properLine l = true)
    (hf : firstHeadingLevel lines = some f) :
    reformat_section_headings (joinSep (str "\n") lines) =
      joinSep (str "\n") (lines.map (rewriteLine (2 - (f : Int)))) := by
  show reformat_section_headings (joinSep ['\n'] lines) =
    joinSep ['\n'] (lines.map (rewriteLine (2 - (f : Int))))
  unfold reformat_section_headings
  rw [if_neg (by rw [joinLines_not_all_space lines f hf]; simp),
    searchHeading_joinLines lines hproper, hf]
  exact subHGo_joinLines lines (2 - (f : Int)) hproper

/-- Counterexample for C6 as stated: in the body `### A\n##\nB` the only
heading line (hash run, space, text) is `### A`, of level 3, so the claim
predicts `## A\n##\nB` with the non-heading lines `##` and `B` unchanged; the
code instead merges `##` with the following line `B` into a new heading,
producing `## A\n## B`, and the line `B` does not survive. -/
theorem heading_rebase_counterexample :
    reformat_section_headings (str "### A\n##\nB") = str "## A\n## B" ∧
      str "## A\n## B" ≠ str "## A\n##\nB" ∧
      (str "B") ∈ splitLines (str "### A\n##\nB") ∧
      (str "B") ∉ splitLines (reformat_section_headings (str "### A\n##\nB")) :=
  ⟨rfl, by decide, by decide, by decide⟩

/-- Witness for the amended C6 at the spec's own example body
`# Title\nText\n## Sub\nMore`, whose lines are all proper; the heading rebase
gives `## Title\nText\n### Sub\nMore`. -/
theorem heading_rebase_witness :
    (∀ l ∈ [str "# Title", str "Text", str "## Sub", str "More"], properLine l = true) ∧
      firstHeadingLevel [str "# Title", str "Text", str "## Sub", str "More"] = some 1 ∧
      reformat_section_headings
          (joinSep (str "\n") [str "# Title", str "Text", str "## Sub", str "More"]) =
        joinSep (str "\n")
          ([str "# Title", str "Text", str "## Sub", str "More"].map
            (rewriteLine (2 - ((1 : Nat) : Int)))) ∧
      joinSep (str "\n") [str "# Title", str "Text", str "## Sub", str "More"] =
        str "# Title\nText\n## Sub\nMore" ∧
      reformat_section_headings (str "# Title\nText\n## Sub\nMore") =
        str "## Title\nText\n### Sub\nMore" ∧
      reformat_section_headings (str "#### A\n##### B") = str "## A\n### B" :=
  ⟨by decide, rfl,
    heading_rebase [str "# Title", str "Text", str "## Sub", str "More"] 1 (by decide) rfl,
    rfl, rfl, rfl⟩

section HashLineLemmas

lemma newLevel_two (k : Nat) : newLevel k (2 - (k : Int)) = 2 := by
  unfold newLevel
  rw [show (k : Int) + (2 - (k : Int)) = 2 from by omega]
  rfl

lemma subHGo_hashline (adj : Int) (k : Nat) (hk : 1 ≤ k) (rest : List Char) :
    subHGo adj .lineStart (mkHashes k ++ '\n' :: rest) = subHGo adj (.ws k '\n') rest := by
  rcases k with _ | k2
  · omega
  · rw [show mkHashes (k2 + 1) = '#' :: mkHashes k2 from rfl, List.cons_append,
      subHGo_lineStart_cons, if_pos rfl, subHGo_hashes k2 1 _ adj,
      subHGo_hashes_cons, if_neg (by decide), if_pos (by decide), Nat.add_comm 1 k2]

lemma searchHeading_hashline (k : Nat) (hk : 1 ≤ k) (rest : List Char) :
    searchHeading .lineStart (mkHashes k ++ '\n' :: rest) = some k := by
  rcases k with _ | k2
  · omega
  · rw [show mkHashes (k2 + 1) = '#' :: mkHashes k2 from rfl, List.cons_append,
      searchHeading_lineStart_cons, if_pos rfl, searchHeading_hashes k2 1 _,
      searchHeading_hashes_cons, if_neg (by decide), if_pos (by decide), Nat.add_comm 1 k2]

lemma hashline_not_all_space (k : Nat) (hk : 1 ≤ k) (rest : List Char) :
    (mkHashes k ++ '\n' :: rest).all isPySpace = false := by
  have hmem : '#' ∈ mkHashes k ++ '\n' :: rest := by
    apply List.mem_append.mpr
    left
    rcases k with _ | k2
    · omega
    · exact List.mem_cons_self _ _
  cases hall : (mkHashes k ++ '\n' :: rest).all isPySpace
  · rfl
  · have := List.all_eq_true.mp hall '#' hmem
    exact absurd this (by decide)

end HashLineLemmas

/-- Claim C10 (amended): a line of `k ≥ 1` hashes followed directly by a
newline is accepted by the first-heading search — its `\s` matches the newline
— and fixes the level adjustment for the whole body.  The line itself survives
unrewritten when its newline is followed by another newline or by the end of
the body; but when a nonempty line follows, the rewriting pattern's `\s` also
matches the newline, so the hash run is merged with the following text into a
single rewritten heading (the original claim said the line is never itself
rewritten). -/
theorem hash_line_detection (k : Nat) (hk : 1 ≤ k) (rest : List Char) :
    searchHeading .lineStart (mkHashes k ++ '\n' :: rest) = some k ∧
      (rest = [] → reformat_section_headings (mkHashes k ++ '\n' :: rest) =
        mkHashes k ++ '\n' :: rest) ∧
      (∀ rest2, rest = '\n' :: rest2 →
        reformat_section_headings (mkHashes k ++ '\n' :: rest) =
          mkHashes k ++ '\n' :: '\n' :: subHGo (2 - (k : Int)) .lineStart rest2) ∧
      (∀ c rest2, rest = c :: rest2 → c ≠ '\n' →
        ∃ t, reformat_section_headings (mkHashes k ++ '\n' :: rest) =
          mkHashes 2 ++ ' ' :: c :: rest2.takeWhile (· ≠ '\n') ++ t) := by
  have hsearch := searchHeading_hashline k hk rest
  have hwrap : reformat_section_headings (mkHashes k ++ '\n' :: rest) =
      subHGo (2 - (k : Int)) .lineStart (mkHashes k ++ '\n' :: rest) := by
    unfold reformat_section_headings
    rw [if_neg (by rw [hashline_not_all_space k hk rest]; simp), hsearch]
  refine ⟨hsearch, ?_, ?_, ?_⟩
  · intro hrest
    subst hrest
    rw [hwrap, subHGo_hashline (2 - (k : Int)) k hk []]
    rfl
  · intro rest2 hrest
    subst hrest
    rw [hwrap, subHGo_hashline (2 - (k : Int)) k hk ('\n' :: rest2),
      subHGo_ws_cons, if_pos rfl]
  · intro c rest2 hrest hc
    subst hrest
    rw [hwrap, subHGo_hashline (2 - (k : Int)) k hk (c :: rest2),
      subHGo_ws_cons, if_neg hc]
    have hsplit : subHGo (2 - (k : Int)) (.content k '\n' [c]) rest2 =
        subHGo (2 - (k : Int))
          (.content k '\n' ((rest2.takeWhile (· ≠ '\n')).reverse ++ [c]))
          (rest2.dropWhile (· ≠ '\n')) := by
      conv_lhs =>
        rw [show rest2 = rest2.takeWhile (· ≠ '\n') ++ rest2.dropWhile (· ≠ '\n') from
          (List.takeWhile_append_dropWhile ..).symm]
      exact subHGo_content (rest2.takeWhile (· ≠ '\n')) k '\n' [c]
        (rest2.dropWhile (· ≠ '\n')) (2 - (k : Int))
        (fun x hx => by simpa using List.mem_takeWhile_imp hx)
    rcases hdw : rest2.dropWhile (· ≠ '\n') with _ | ⟨d, r3⟩
    · rw [hdw] at hsplit
      refine ⟨[], ?_⟩
      rw [hsplit, subHGo_content_nil, revacc, newLevel_two, List.append_nil]
    · have hd : d = '\n' := by
        have h2 : (rest2.dropWhile (· ≠ '\n')).head? = some d := by
          rw [hdw]
          rfl
        have h3 := List.head?_dropWhile_not (fun x => decide (x ≠ '\n')) rest2
        rw [h2] at h3
        have h4 : decide (d ≠ '\n') = false := h3
        simpa using h4
      subst hd
      rw [hdw] at hsplit
      refine ⟨'\n' :: subHGo (2 - (k : Int)) .lineStart r3, ?_⟩
      rw [hsplit, subHGo_content_cons, if_pos rfl, revacc, newLevel_two]

/-- Counterexample for C10 as stated: for the body `##\nX` the hash-only line
determines the shift, but it IS rewritten — the rewriting pattern's `\s`
matches its newline and `(.+)` captures the following line, so the output is
the single merged heading `## X` and no line `##` survives. -/
theorem hash_line_rewritten_counterexample :
    reformat_section_headings (str "##\nX") = str "## X" ∧
      (str "##") ∈ splitLines (str "##\nX") ∧
      (str "##") ∉ splitLines (reformat_section_headings (str "##\nX")) :=
  ⟨rfl, by decide, by decide⟩

/-- Witness for the amended C10 at `k = 2` with following text `X`. -/
theorem hash_line_detection_witness :
    1 ≤ 2 ∧
      (searchHeading .lineStart (mkHashes 2 ++ '\n' :: str "X") = some 2 ∧
        (str "X" = [] → reformat_section_headings (mkHashes 2 ++ '\n' :: str "X") =
          mkHashes 2 ++ '\n' :: str "X") ∧
        (∀ rest2, str "X" = '\n' :: rest2 →
          reformat_section_headings (mkHashes 2 ++ '\n' :: str "X") =
            mkHashes 2 ++ '\n' :: '\n' :: subHGo (2 - ((2 : Nat) : Int)) .lineStart rest2) ∧
        (∀ c rest2, str "X" = c :: rest2 → c ≠ '\n' →
          ∃ t, reformat_section_headings (mkHashes 2 ++ '\n' :: str "X") =
            mkHashes 2 ++ ' ' :: c :: rest2.takeWhile (· ≠ '\n') ++ t)) :=
  ⟨by decide, hash_line_detection 2 (by decide) (str "X")⟩

section WriteReportLemmas

lemma writeLoop_cons (body : List Char) (srefs : List (List Char))
    (rest : List (List Char × List (List Char))) (acc : List Char)
    (refs : List (List Char)) :
    writeLoop ((body, srefs) :: rest) acc refs =
      match reformat_references body srefs refs with
      | .error e => .error e
      | .ok (b, refs') =>
        writeLoop rest (acc ++ reformat_section_headings b ++ str "\n\n") refs' := rfl

lemma writeLoop_spec (drafts : List (List Char × List (List Char))) :
    ∀ (acc : List Char) (refs : List (List Char)) (out : List Char)
      (refsOut : List (List Char)), GoodRefs refs →
      writeLoop drafts acc refs = .ok (out, refsOut) →
      GoodRefs refsOut ∧ ∃ mid, out = acc ++ mid := by
  induction drafts with
  | nil =>
    intro acc refs out refsOut hg h
    have hpair : (acc, refs) = (out, refsOut) := by injection h
    obtain ⟨h1, h2⟩ := Prod.mk.injEq _ _ _ _ |>.mp hpair
    subst h1
    subst h2
    exact ⟨hg, [], by simp⟩
  | cons c rest ih =>
    obtain ⟨body, srefs⟩ := c
    intro acc refs out refsOut hg h
    rw [writeLoop_cons] at h
    rcases hr : reformat_references body srefs refs with e | ⟨b, refs1⟩
    · rw [hr] at h
      exact absurd h (by simp)
    · rw [hr] at h
      have h2 : writeLoop rest (acc ++ reformat_section_headings b ++ str "\n\n") refs1 =
          .ok (out, refsOut) := h
      obtain ⟨hg1, _, _⟩ := reformat_preserves_good body srefs refs b refs1 hg hr
      obtain ⟨hgout, mid, hmid⟩ := ih _ refs1 out refsOut hg1 h2
      refine ⟨hgout, reformat_section_headings b ++ str "\n\n" ++ mid, ?_⟩
      rw [hmid]
      simp [List.append_assoc]

end WriteReportLemmas

/-- Claim C7 (amended): the document returned by `write_report` starts with the
line `# <title>` followed by the table of contents with one numbered entry per
planned section in order, then the section bodies, and ends with the reference
block whose heading line is exactly `## References:` — with a trailing colon,
not the claim's `## References` — and whose entries `[n] locator` list pairwise
distinct locators in ascending numeric order 1..N, joined by two trailing
spaces and a newline. -/
theorem report_shape (title : List Char) (sectionTitles : List (List Char))
    (drafts : List (List Char × List (List Char))) (doc : List Char)
    (h : write_report title sectionTitles drafts = .ok doc) :
    ∃ (mid : List Char) (urls : List (List Char)), urls.Nodup ∧
      doc = reportHeader title sectionTitles ++ mid ++ refsTail (numberedRefs 0 urls) := by
  unfold write_report at h
  rcases hw : writeLoop drafts (reportHeader title sectionTitles) [] with e | ⟨acc, refs⟩
  · rw [hw] at h
    exact absurd h (by simp)
  · rw [hw] at h
    obtain ⟨hgood, mid, hacc⟩ := writeLoop_spec drafts (reportHeader title sectionTitles) []
      acc refs goodRefs_nil hw
    obtain ⟨urls, hnd, _, hshape⟩ := hgood
    refine ⟨mid, urls, hnd, ?_⟩
    have hdoc : acc ++ refsTail refs = doc := by injection h
    rw [← hdoc, hacc, hshape, List.append_assoc]

/-- Counterexample for C7 as stated: the reference-block heading line produced
by `write_report` (source line 222) is `## References:` with a colon; no line
`## References` occurs in the output. -/
theorem report_heading_colon_counterexample :
    write_report (str "T") [str "S"] [(str "Body", [str "[1] a.com"])] =
      .ok (str "# T\n\n## Table of Contents\n\n1. S\n\nBody\n\n## References:\n\n[1] a.com") ∧
      (str "## References:") ∈ splitLines (okDoc (write_report (str "T") [str "S"]
        [(str "Body", [str "[1] a.com"])])) ∧
      (str "## References") ∉ splitLines (okDoc (write_report (str "T") [str "S"]
        [(str "Body", [str "[1] a.com"])])) :=
  ⟨rfl, by decide, by decide⟩

/-- Witness for the amended C7 at a one-section report with one reference. -/
theorem report_shape_witness :
    write_report (str "T") [str "S"] [(str "Body", [str "[1] a.com"])] =
      .ok (str "# T\n\n## Table of Contents\n\n1. S\n\nBody\n\n## References:\n\n[1] a.com") ∧
      ∃ (mid : List Char) (urls : List (List Char)), urls.Nodup ∧
        str "# T\n\n## Table of Contents\n\n1. S\n\nBody\n\n## References:\n\n[1] a.com" =
          reportHeader (str "T") [str "S"] ++ mid ++ refsTail (numberedRefs 0 urls) :=
  ⟨rfl, report_shape (str "T") [str "S"] [(str "Body", [str "[1] a.com"])] _ rfl⟩

section SharedLocatorHelpers

lemma posOf_append_left (u : List Char) (xs ys : List (List Char)) (i : Nat)
    (h : posOf u xs = some i) : posOf u (xs ++ ys) = some i := by
  induction xs generalizing i with
  | nil => exact absurd h (by simp [posOf])
  | cons v vs ih =>
    rw [List.cons_append]
    unfold posOf at h ⊢
    by_cases hv : v = u
    · rw [if_pos hv] at h ⊢
      exact h
    · rw [if_neg hv] at h ⊢
      rcases hp : posOf u vs with _ | i2
      · rw [hp] at h
        exact absurd h (by simp)
      · rw [hp] at h
        rw [ih i2 hp]
        exact h

lemma posOf_append_head (u : List Char) (xs ys : List (List Char)) (h : u ∉ xs) :
    posOf u (xs ++ u :: ys) = some xs.length := by
  induction xs with
  | nil =>
    rw [List.nil_append]
    unfold posOf
    rw [if_pos rfl]
    rfl
  | cons v vs ih =>
    rw [List.cons_append]
    unfold posOf
    rw [if_neg (fun hc => h (by rw [← hc]; exact List.mem_cons_self v vs)),
      ih (fun hc => h (List.mem_cons_of_mem v hc))]
    rfl

lemma posOf_some_mem (u : List Char) (xs : List (List Char)) (j : Nat)
    (h : posOf u xs = some j) : u ∈ xs := by
  by_contra hm
  rw [(posOf_eq_none_iff u xs).mpr hm] at h
  exact Option.noConfusion h

lemma consolidate_s2r_stable (sec : List (List Char × Int)) :
    ∀ (repMap : List (List Char × Int)) (s2r : List (Int × Int))
      (refs : List (List Char)) (cnt : Int) (n : Int),
      n ∉ sec.map Prod.snd →
      dfind (consolidate sec repMap s2r refs cnt).1 n = dfind s2r n := by
  induction sec with
  | nil => intro _ _ _ _ _ _; rfl
  | cons p rest ih =>
    obtain ⟨u0, n0⟩ := p
    intro repMap s2r refs cnt n hn
    have hn0 : n ≠ n0 := by
      intro hc
      exact hn (by rw [List.map_cons]; exact hc ▸ List.mem_cons_self _ _)
    have hnr : n ∉ rest.map Prod.snd := by
      intro hc
      exact hn (by rw [List.map_cons]; exact List.mem_cons_of_mem _ hc)
    rcases hf : dfind repMap u0 with _ | q
    · rw [consolidate_cons_new u0 n0 rest repMap s2r refs cnt hf,
        ih repMap (dinsert s2r n0 (cnt + 1)) _ (cnt + 1) n hnr,
        dfind_dinsert_ne s2r n0 n (cnt + 1) hn0]
    · rw [consolidate_cons_found u0 n0 rest repMap s2r refs cnt q hf,
        ih repMap (dinsert s2r n0 q.2) refs cnt n hnr,
        dfind_dinsert_ne s2r n0 n q.2 hn0]

lemma convertGo_ok_exists (l : List (List Char)) (hok : ∀ r ∈ l, isOkParse r = true) :
    ∀ acc, ∃ m, convertGo l acc = .ok m := by
  induction l with
  | nil => intro acc; exact ⟨acc, rfl⟩
  | cons r rs ih =>
    intro acc
    have hr := hok r (List.mem_cons_self r rs)
    unfold isOkParse at hr
    cases hp : parseRef r with
    | ok n u =>
      obtain ⟨m, hm⟩ := ih (fun x hx => hok x (List.mem_cons_of_mem r hx)) (dinsert acc u n)
      refine ⟨m, ?_⟩
      unfold convertGo
      rw [hp]
      exact hm
    | valueError =>
      rw [hp] at hr
      exact absurd hr (by simp)
    | indexError =>
      rw [hp] at hr
      exact absurd hr (by simp)

lemma lastNumFor_some_of_mem (L : List Char) (l : List (List Char))
    (h : L ∈ parsedLocs l) : ∃ n, lastNumFor L l = some n := by
  induction l with
  | nil => exact absurd h (by simp [parsedLocs])
  | cons r rs ih =>
    rcases hlast : lastNumFor L rs with _ | n2
    · cases hp : parseRef r with
      | ok n u =>
        rw [parsedLocs_cons_ok r rs n u hp] at h
        rcases List.mem_cons.mp h with rfl | h'
        · refine ⟨n, ?_⟩
          rw [lastNumFor_cons, hlast, hp]
          show (if L = L then some n else none) = some n
          rw [if_pos rfl]
        · obtain ⟨n', hn'⟩ := ih h'
          rw [hn'] at hlast
          exact absurd hlast (by simp)
      | valueError =>
        rw [parsedLocs_cons_fail r rs (by unfold entryLoc; rw [hp])] at h
        obtain ⟨n', hn'⟩ := ih h
        rw [hn'] at hlast
        exact absurd hlast (by simp)
      | indexError =>
        rw [parsedLocs_cons_fail r rs (by unfold entryLoc; rw [hp])] at h
        obtain ⟨n', hn'⟩ := ih h
        rw [hn'] at hlast
        exact absurd hlast (by simp)
    · refine ⟨n2, ?_⟩
      rw [lastNumFor_cons, hlast]

lemma convertGo_mem_origin (l : List (List Char)) :
    ∀ (acc m : List (List Char × Int)) (p : List Char × Int),
      convertGo l acc = .ok m → p ∈ m →
      p ∈ acc ∨ ∃ r ∈ l, parseRef r = .ok p.2 p.1 := by
  induction l with
  | nil =>
    intro acc m p h hp
    have : acc = m := by injection h
    subst this
    exact Or.inl hp
  | cons r rs ih =>
    intro acc m p h hp
    unfold convertGo at h
    cases hpr : parseRef r with
    | ok n u =>
      rw [hpr] at h
      rcases ih (dinsert acc u n) m p h hp with h' | h'
      · rcases mem_dinsert acc u n p h' with rfl | h''
        · exact Or.inr ⟨r, List.mem_cons_self r rs, hpr⟩
        · exact Or.inl h''
      · obtain ⟨r2, hr2, hpr2⟩ := h'
        exact Or.inr ⟨r2, List.mem_cons_of_mem r hr2, hpr2⟩
    | valueError =>
      rw [hpr] at h
      rcases ih acc m p h hp with h' | h'
      · exact Or.inl h'
      · obtain ⟨r2, hr2, hpr2⟩ := h'
        exact Or.inr ⟨r2, List.mem_cons_of_mem r hr2, hpr2⟩
    | indexError =>
      rw [hpr] at h
      exact absurd h (by simp)

lemma two_mem_countP {α : Type} (p : α → Bool) (l : List α) :
    ∀ (a b : α), a ∈ l → b ∈ l → a ≠ b → p a = true → p b = true →
      2 ≤ l.countP p := by
  induction l with
  | nil => intro a b ha _ _ _ _; exact absurd ha (List.not_mem_nil a)
  | cons x xs ih =>
    intro a b ha hb hab hpa hpb
    rw [List.countP_cons]
    by_cases hxa : x = a
    · subst hxa
      have hbx : b ∈ xs := by
        rcases List.mem_cons.mp hb with rfl | h'
        · exact absurd rfl hab.symm
        · exact h'
      have h1 : 0 < xs.countP p := List.countP_pos.mpr ⟨b, hbx, hpb⟩
      rw [if_pos hpa]
      omega
    · by_cases hxb : x = b
      · subst hxb
        have hax : a ∈ xs := by
          rcases List.mem_cons.mp ha with rfl | h'
          · exact absurd rfl hab
          · exact h'
        have h1 : 0 < xs.countP p := List.countP_pos.mpr ⟨a, hax, hpa⟩
        rw [if_pos hpb]
        omega
      · have hax : a ∈ xs := by
          rcases List.mem_cons.mp ha with h' | h'
          · exact absurd h'.symm hxa
          · exact h'
        have hbx : b ∈ xs := by
          rcases List.mem_cons.mp hb with h' | h'
          · exact absurd h'.symm hxb
          · exact h'
        have := ih a b hax hbx hab hpa hpb
        omega

lemma countP_filterMap_eq {α β : Type} [DecidableEq β] (f : α → Option β) (b : β)
    (l : List α) :
    (l.filterMap f).countP (fun x => x = b) = l.countP (fun a => f a = some b) := by
  induction l with
  | nil => rfl
  | cons a as ih =>
    rcases hf : f a with _ | c
    · have h1 : List.filterMap f (a :: as) = List.filterMap f as := by
        rw [List.filterMap_cons, hf]
      rw [h1, List.countP_cons, ih]
      have h2 : (decide (f a = some b)) = false := by
        rw [hf]
        simp
      rw [h2]
      simp
    · have h1 : List.filterMap f (a :: as) = c :: List.filterMap f as := by
        rw [List.filterMap_cons, hf]
      rw [h1, List.countP_cons, List.countP_cons, ih]
      have h2 : (decide (f a = some b)) = decide (c = b) := by
        rw [hf]
        by_cases hc : c = b
        · subst hc
          simp
        · simp [hc]
      rw [h2]

lemma nodup_countP_le_one {α : Type} [DecidableEq α] (l : List α) (hnd : l.Nodup)
    (b : α) : l.countP (fun x => x = b) ≤ 1 := by
  induction l with
  | nil => simp
  | cons x xs ih =>
    obtain ⟨hx, hxs⟩ := List.nodup_cons.mp hnd
    rw [List.countP_cons]
    by_cases hxb : x = b
    · subst hxb
      have h0 : xs.countP (fun y => y = x) = 0 := by
        rw [List.countP_eq_zero]
        intro a ha
        simp only [decide_eq_true_eq]
        intro hc
        exact hx (hc ▸ ha)
      rw [h0]
      simp
    · have := ih hxs
      simp only [decide_eq_true_eq]
      rw [if_neg hxb]
      omega

lemma countP_eq_one_of_nodup_mem {α : Type} [DecidableEq α] (l : List α) (hnd : l.Nodup)
    (b : α) (hb : b ∈ l) : l.countP (fun x => x = b) = 1 := by
  induction l with
  | nil => exact absurd hb (List.not_mem_nil b)
  | cons x xs ih =>
    obtain ⟨hx, hxs⟩ := List.nodup_cons.mp hnd
    rw [List.countP_cons]
    by_cases hxb : x = b
    · subst hxb
      have h0 : xs.countP (fun y => y = x) = 0 := by
        rw [List.countP_eq_zero]
        intro a ha
        simp only [decide_eq_true_eq]
        intro hc
        exact hx (hc ▸ ha)
      rw [h0]
      simp
    · have hbxs : b ∈ xs := by
        rcases List.mem_cons.mp hb with h' | h'
        · exact absurd h'.symm hxb
        · exact h'
      rw [ih hxs hbxs]
      simp only [decide_eq_true_eq]
      rw [if_neg hxb]

lemma countP_numberedRefs (L : List Char) (urls : List (List Char)) :
    ∀ k, (∀ u ∈ urls, Stripped u) →
      (numberedRefs k urls).countP (fun e => entryLoc e = some L) =
        urls.countP (fun u => u = L) := by
  induction urls with
  | nil => intro k _; rfl
  | cons u us ih =>
    intro k hst
    show (refEntry (Int.ofNat (k + 1)) u :: numberedRefs (k + 1) us).countP _ = _
    rw [List.countP_cons, List.countP_cons,
      ih (k + 1) (fun v hv => hst v (List.mem_cons_of_mem u hv))]
    have hloc : entryLoc (refEntry (Int.ofNat (k + 1)) u) = some u := by
      unfold entryLoc
      rw [parseRef_refEntry k u (hst u (List.mem_cons_self u us))]
    have h2 : (decide (entryLoc (refEntry (Int.ofNat (k + 1)) u) = some L)) =
        decide (u = L) := by
      rw [hloc]
      by_cases hu : u = L
      · subst hu
        simp
      · simp [hu]
    rw [h2]

lemma secMap_val_unique (s : List (List Char)) (secMap : List (List Char × Int))
    (h : convertGo s [] = .ok secMap) (hnums : (parsedNums s).Nodup)
    (u0 : List Char) (n0 : Int) (hm : (u0, n0) ∈ secMap) :
    ∀ p ∈ secMap, p.2 = n0 → p.1 = u0 := by
  intro p hp hp2
  by_contra hne
  rcases convertGo_mem_origin s [] secMap (u0, n0) h hm with h0 | h0
  · exact absurd h0 (List.not_mem_nil _)
  obtain ⟨r1, hr1, hpr1⟩ := h0
  rcases convertGo_mem_origin s [] secMap p h hp with h0 | h0
  · exact absurd h0 (List.not_mem_nil _)
  obtain ⟨r2, hr2, hpr2⟩ := h0
  rw [hp2] at hpr2
  have hr12 : r1 ≠ r2 := by
    intro hc
    rw [hc] at hpr1
    have heq := hpr2.symm.trans hpr1
    injection heq with h1 h2
    exact hne h2
  have hpa : decide ((match parseRef r1 with
      | .ok n _ => some n
      | _ => none) = some n0) = true := by
    rw [hpr1]
    show decide ((some n0 : Option Int) = some n0) = true
    simp
  have hpb : decide ((match parseRef r2 with
      | .ok n _ => some n
      | _ => none) = some n0) = true := by
    rw [hpr2]
    show decide ((some n0 : Option Int) = some n0) = true
    simp
  have h2c := two_mem_countP (fun r => decide ((match parseRef r with
      | .ok n _ => some n
      | _ => none) = some n0)) s r1 r2 hr1 hr2 hr12 hpa hpb
  have h1c := nodup_countP_le_one (parsedNums s) hnums n0
  have heq2 : (parsedNums s).countP (fun x => x = n0) =
      s.countP (fun r => (match parseRef r with
        | .ok n _ => some n
        | _ => none) = some n0) := by
    unfold parsedNums
    exact countP_filterMap_eq _ n0 s
  rw [heq2] at h1c
  omega

lemma consolidate_full (sec : List (List Char × Int)) :
    ∀ (urls newUrls : List (List Char)) (s2r : List (Int × Int))
      (u0 : List Char) (n0 : Int),
      (urls ++ newUrls).Nodup →
      (∀ u ∈ urls ++ newUrls, Stripped u) →
      (∀ p ∈ sec, Stripped p.1) →
      (∀ p ∈ sec, p.1 ∉ newUrls) →
      (sec.map Prod.fst).Nodup →
      (u0, n0) ∈ sec →
      (∀ p ∈ sec, p.2 = n0 → p.1 = u0) →
      ∃ (moreUrls : List (List Char)) (j : Nat),
        (consolidate sec (mapOfUrls 0 urls) s2r (numberedRefs 0 (urls ++ newUrls))
            (Int.ofNat (urls.length + newUrls.length))).2.1 =
          numberedRefs 0 (urls ++ newUrls ++ moreUrls) ∧
        (urls ++ newUrls ++ moreUrls).Nodup ∧
        (∀ u ∈ moreUrls, Stripped u) ∧
        posOf u0 (urls ++ newUrls ++ moreUrls) = some j ∧
        dfind (consolidate sec (mapOfUrls 0 urls) s2r (numberedRefs 0 (urls ++ newUrls))
            (Int.ofNat (urls.length + newUrls.length))).1 n0 =
          some (n0, Int.ofNat (j + 1)) := by
  induction sec with
  | nil =>
    intro urls newUrls s2r u0 n0 _ _ _ _ _ hm _
    exact absurd hm (List.not_mem_nil _)
  | cons p rest ih =>
    obtain ⟨u, n⟩ := p
    intro urls newUrls s2r u0 n0 hnd hst hsst hsnew hskeys hm hvals
    rcases List.mem_cons.mp hm with heq | hm2
    · -- the head pair is the tracked (locator, local number)
      injection heq with hu hn
      subst hu
      subst hn
      have hn0rest : n0 ∉ rest.map Prod.snd := by
        intro hc
        obtain ⟨p, hp, hp2⟩ := List.mem_map.mp hc
        have hp1 := hvals p (List.mem_cons_of_mem _ hp) hp2
        have hmem : u0 ∈ rest.map Prod.fst := by
          rw [← hp1]
          exact List.mem_map_of_mem Prod.fst hp
        exact (List.nodup_cons.mp hskeys).1 hmem
      rcases hf : dfind (mapOfUrls 0 urls) u0 with _ | q
      · -- the locator is new: appended at the end of the list
        have hstep := consolidate_cons_new u0 n0 rest (mapOfUrls 0 urls) s2r
          (numberedRefs 0 (urls ++ newUrls)) (Int.ofNat (urls.length + newUrls.length)) hf
        have hu_urls : u0 ∉ urls := by
          rw [dfind_mapOfUrls] at hf
          rcases hpos : posOf u0 urls with _ | i
          · exact (posOf_eq_none_iff u0 urls).mp hpos
          · rw [hpos] at hf
            exact absurd hf (by simp)
        have hu_new : u0 ∉ newUrls := hsnew (u0, n0) (List.mem_cons_self _ _)
        have hrefs2 : numberedRefs 0 (urls ++ newUrls) ++
            [refEntry (Int.ofNat (urls.length + newUrls.length) + 1) u0] =
            numberedRefs 0 (urls ++ (newUrls ++ [u0])) := by
          rw [intOfNat_succ,
            show urls.length + newUrls.length + 1 = 0 + (urls ++ newUrls).length + 1 from by
              simp only [List.length_append]
              omega,
            numberedRefs_concat 0 (urls ++ newUrls) u0, List.append_assoc]
        have hcnt2 : Int.ofNat (urls.length + newUrls.length) + 1 =
            Int.ofNat (urls.length + (newUrls ++ [u0]).length) := by
          rw [intOfNat_succ]
          congr 1
          simp only [List.length_append, List.length_cons, List.length_nil]
          omega
        have hnd2 : (urls ++ (newUrls ++ [u0])).Nodup := by
          rw [← List.append_assoc, List.nodup_append]
          refine ⟨hnd, List.nodup_singleton u0, ?_⟩
          intro x hx hxu
          simp only [List.mem_singleton] at hxu
          subst hxu
          rcases List.mem_append.mp hx with h0 | h0
          · exact hu_urls h0
          · exact hu_new h0
        have hst2 : ∀ v ∈ urls ++ (newUrls ++ [u0]), Stripped v := by
          intro v hv
          rw [← List.append_assoc] at hv
          rcases List.mem_append.mp hv with h0 | h0
          · exact hst v h0
          · simp only [List.mem_singleton] at h0
            subst h0
            exact hsst (v, n0) (List.mem_cons_self _ _)
        have hsnew2 : ∀ p ∈ rest, p.1 ∉ newUrls ++ [u0] := by
          intro p hp hmem
          rcases List.mem_append.mp hmem with h0 | h0
          · exact hsnew p (List.mem_cons_of_mem _ hp) h0
          · simp only [List.mem_singleton] at h0
            have : u0 ∉ rest.map Prod.fst := (List.nodup_cons.mp hskeys).1
            exact this (h0 ▸ List.mem_map_of_mem Prod.fst hp)
        rw [hrefs2, hcnt2] at hstep
        rw [hstep]
        rcases consolidate_spec rest urls (newUrls ++ [u0])
            (dinsert s2r n0 (Int.ofNat (urls.length + (newUrls ++ [u0]).length))) hnd2 hst2
            (fun p hp => hsst p (List.mem_cons_of_mem _ hp)) hsnew2
            (List.nodup_cons.mp hskeys).2 with ⟨more, h1, h2, h3, _⟩
        have hassoc : urls ++ (newUrls ++ [u0]) ++ more = urls ++ newUrls ++ (u0 :: more) := by
          simp
        refine ⟨u0 :: more, (urls ++ newUrls).length, ?_, ?_, ?_, ?_, ?_⟩
        · rw [h1, hassoc]
        · rw [← hassoc]
          exact h2
        · intro v hv
          rcases List.mem_cons.mp hv with rfl | hv2
          · exact hsst (v, n0) (List.mem_cons_self _ _)
          · exact h3 v hv2
        · exact posOf_append_head u0 (urls ++ newUrls) more (by
            intro hc
            rcases List.mem_append.mp hc with h0 | h0
            · exact hu_urls h0
            · exact hu_new h0)
        · rw [consolidate_s2r_stable rest _ _ _ _ n0 hn0rest, dfind_dinsert_self]
          have hlen : urls.length + (newUrls ++ [u0]).length = (urls ++ newUrls).length + 1 := by
            simp only [List.length_append, List.length_cons, List.length_nil]
            omega
          rw [hlen]
      · -- the locator is already present: it keeps its existing position
        have hq := dfind_mapOfUrls u0 urls 0
        rw [hf] at hq
        rcases hpos : posOf u0 urls with _ | j
        · rw [hpos] at hq
          exact absurd hq (by simp)
        · rw [hpos] at hq
          have hq2 : q = (u0, Int.ofNat (0 + j + 1)) := by
            simpa using hq
          have hstep := consolidate_cons_found u0 n0 rest (mapOfUrls 0 urls) s2r
            (numberedRefs 0 (urls ++ newUrls)) (Int.ofNat (urls.length + newUrls.length)) q hf
          rw [hstep]
          rcases consolidate_spec rest urls newUrls (dinsert s2r n0 q.2) hnd hst
              (fun p hp => hsst p (List.mem_cons_of_mem _ hp))
              (fun p hp => hsnew p (List.mem_cons_of_mem _ hp))
              (List.nodup_cons.mp hskeys).2 with ⟨more, h1, h2, h3, _⟩
          refine ⟨more, j, h1, h2, h3, ?_, ?_⟩
          · rw [List.append_assoc]
            exact posOf_append_left u0 urls (newUrls ++ more) j hpos
          · rw [consolidate_s2r_stable rest _ _ _ _ n0 hn0rest, dfind_dinsert_self, hq2]
            show some (n0, Int.ofNat (0 + j + 1)) = some (n0, Int.ofNat (j + 1))
            rw [Nat.zero_add]
    · -- the tracked pair lies in the tail: recurse
      have hvals2 : ∀ p ∈ rest, p.2 = n0 → p.1 = u0 :=
        fun p hp hp2 => hvals p (List.mem_cons_of_mem _ hp) hp2
      rcases hf : dfind (mapOfUrls 0 urls) u with _ | q
      · have hstep := consolidate_cons_new u n rest (mapOfUrls 0 urls) s2r
          (numberedRefs 0 (urls ++ newUrls)) (Int.ofNat (urls.length + newUrls.length)) hf
        have hu_urls : u ∉ urls := by
          rw [dfind_mapOfUrls] at hf
          rcases hpos : posOf u urls with _ | i
          · exact (posOf_eq_none_iff u urls).mp hpos
          · rw [hpos] at hf
            exact absurd hf (by simp)
        have hu_new : u ∉ newUrls := hsnew (u, n) (List.mem_cons_self _ _)
        have hrefs2 : numberedRefs 0 (urls ++ newUrls) ++
            [refEntry (Int.ofNat (urls.length + newUrls.length) + 1) u] =
            numberedRefs 0 (urls ++ (newUrls ++ [u])) := by
          rw [intOfNat_succ,
            show urls.length + newUrls.length + 1 = 0 + (urls ++ newUrls).length + 1 from by
              simp only [List.length_append]
              omega,
            numberedRefs_concat 0 (urls ++ newUrls) u, List.append_assoc]
        have hcnt2 : Int.ofNat (urls.length + newUrls.length) + 1 =
            Int.ofNat (urls.length + (newUrls ++ [u]).length) := by
          rw [intOfNat_succ]
          congr 1
          simp only [List.length_append, List.length_cons, List.length_nil]
          omega
        have hnd2 : (urls ++ (newUrls ++ [u])).Nodup := by
          rw [← List.append_assoc, List.nodup_append]
          refine ⟨hnd, List.nodup_singleton u, ?_⟩
          intro x hx hxu
          simp only [List.mem_singleton] at hxu
          subst hxu
          rcases List.mem_append.mp hx with h0 | h0
          · exact hu_urls h0
          · exact hu_new h0
        have hst2 : ∀ v ∈ urls ++ (newUrls ++ [u]), Stripped v := by
          intro v hv
          rw [← List.append_assoc] at hv
          rcases List.mem_append.mp hv with h0 | h0
          · exact hst v h0
          · simp only [List.mem_singleton] at h0
            subst h0
            exact hsst (v, n) (List.mem_cons_self _ _)
        have hsnew2 : ∀ p ∈ rest, p.1 ∉ newUrls ++ [u] := by
          intro p hp hmem
          rcases List.mem_append.mp hmem with h0 | h0
          · exact hsnew p (List.mem_cons_of_mem _ hp) h0
          · simp only [List.mem_singleton] at h0
            have : u ∉ rest.map Prod.fst := (List.nodup_cons.mp hskeys).1
            exact this (h0 ▸ List.mem_map_of_mem Prod.fst hp)
        rw [hrefs2, hcnt2] at hstep
        rw [hstep]
        rcases ih urls (newUrls ++ [u])
            (dinsert s2r n (Int.ofNat (urls.length + (newUrls ++ [u]).length))) u0 n0
            hnd2 hst2 (fun p hp => hsst p (List.mem_cons_of_mem _ hp)) hsnew2
            (List.nodup_cons.mp hskeys).2 hm2 hvals2 with ⟨more, j, h1, h2, h3, h4, h5⟩
        have hassoc : urls ++ (newUrls ++ [u]) ++ more = urls ++ newUrls ++ (u :: more) := by
          simp
        refine ⟨u :: more, j, ?_, ?_, ?_, ?_, ?_⟩
        · rw [h1, hassoc]
        · rw [← hassoc]
          exact h2
        · intro v hv
          rcases List.mem_cons.mp hv with rfl | hv2
          · exact hsst (v, n) (List.mem_cons_self _ _)
          · exact h3 v hv2
        · rw [← hassoc]
          exact h4
        · exact h5
      · have hstep := consolidate_cons_found u n rest (mapOfUrls 0 urls) s2r
          (numberedRefs 0 (urls ++ newUrls)) (Int.ofNat (urls.length + newUrls.length)) q hf
        rw [hstep]
        exact ih urls newUrls (dinsert s2r n q.2) u0 n0 hnd hst
          (fun p hp => hsst p (List.mem_cons_of_mem _ hp))
          (fun p hp => hsnew p (List.mem_cons_of_mem _ hp))
          (List.nodup_cons.mp hskeys).2 hm2 hvals2

end SharedLocatorHelpers

/-- Claim C2: if the same locator `L` occurs (with any local numbers) in the
well-formed reference lists of two sections consolidated in sequence from a
good global list, then both calls to `reformat_references` succeed with bodies
rewritten through local-to-global maps that send `L`'s local number to one and
the same global number `g ≥ 1` — so every in-text marker for `L` in either
section body is rewritten to the same `[g]` — and the final global reference
list contains exactly one entry whose locator is `L`. -/
theorem shared_locator_single_number
    (b1 b2 : List Char) (s1 s2 : List (List Char)) (refs0 : List (List Char))
    (L : List Char) (o1 o2 : List Char) (refsA refsB : List (List Char))
    (hg : GoodRefs refs0)
    (hw1 : WellFormedRefs s1) (hw2 : WellFormedRefs s2)
    (hL1 : L ∈ parsedLocs s1) (hL2 : L ∈ parsedLocs s2)
    (h1 : reformat_references b1 s1 refs0 = .ok (o1, refsA))
    (h2 : reformat_references b2 s2 refsA = .ok (o2, refsB)) :
    ∃ g m n : Int, ∃ s2r1 s2r2 : List (Int × Int),
      1 ≤ g ∧
      lastNumFor L s1 = some m ∧ lastNumFor L s2 = some n ∧
      o1 = subMGo s2r1 .scan b1 ∧ o2 = subMGo s2r2 .scan b2 ∧
      dfind s2r1 m = some (m, g) ∧ dfind s2r2 n = some (n, g) ∧
      (∀ k : Nat, (k : Int) = m → replace_reference s2r1 k = markerChars g) ∧
      (∀ k : Nat, (k : Int) = n → replace_reference s2r2 k = markerChars g) ∧
      refsB.countP (fun e => entryLoc e = some L) = 1 := by
  obtain ⟨urls0, hnd0, hst0, rfl⟩ := hg
  obtain ⟨hok1, _, hnums1⟩ := hw1
  obtain ⟨hok2, _, hnums2⟩ := hw2
  obtain ⟨m, hm⟩ := lastNumFor_some_of_mem L s1 hL1
  obtain ⟨n, hn⟩ := lastNumFor_some_of_mem L s2 hL2
  -- first call
  obtain ⟨secMap1, hsec1⟩ := convertGo_ok_exists s1 hok1 []
  have hsec1m : convert_ref_list_to_map s1 = .ok secMap1 := hsec1
  have hrep1 := convert_numberedRefs urls0 hnd0 hst0
  rw [reformat_eq b1 s1 _ secMap1 _ hsec1m hrep1, dictMax0_mapOfUrls] at h1
  obtain ⟨hkeys1, hstall1⟩ := convertGo_props s1 [] secMap1 hsec1 (by simp) (by simp)
  have hdf1 : dfind secMap1 L = some (L, m) := by
    rw [dfind_convertGo_last s1 [] secMap1 L hsec1, hm]
  have hmem1 := (dfind_some_mem secMap1 L (L, m) hdf1).1
  have hvu1 := secMap_val_unique s1 secMap1 hsec1 hnums1 L m hmem1
  obtain ⟨more1, j1, hA1, hA2, hA3, hA4, hA5⟩ :=
    consolidate_full secMap1 urls0 [] [] L m (by simpa using hnd0)
      (by intro u hu; exact hst0 u (by simpa using hu)) hstall1 (by simp) hkeys1 hmem1 hvu1
  simp only [List.append_nil, List.length_nil, Nat.add_zero] at hA1 hA2 hA3 hA4 hA5
  have hpair1 : (subMGo (consolidate secMap1 (mapOfUrls 0 urls0) []
      (numberedRefs 0 urls0) (Int.ofNat urls0.length)).1 .scan b1,
      (consolidate secMap1 (mapOfUrls 0 urls0) [] (numberedRefs 0 urls0)
        (Int.ofNat urls0.length)).2.1) = (o1, refsA) := by
    injection h1
  have ho1 : o1 = subMGo (consolidate secMap1 (mapOfUrls 0 urls0) []
      (numberedRefs 0 urls0) (Int.ofNat urls0.length)).1 .scan b1 :=
    ((Prod.mk.injEq _ _ _ _).mp hpair1).1.symm
  have hrefsA : refsA = numberedRefs 0 (urls0 ++ more1) := by
    rw [← ((Prod.mk.injEq _ _ _ _).mp hpair1).2]
    exact hA1
  -- second call
  have hstA : ∀ u ∈ urls0 ++ more1, Stripped u := by
    intro u hu
    rcases List.mem_append.mp hu with h0 | h0
    · exact hst0 u h0
    · exact hA3 u h0
  obtain ⟨secMap2, hsec2⟩ := convertGo_ok_exists s2 hok2 []
  have hsec2m : convert_ref_list_to_map s2 = .ok secMap2 := hsec2
  have hrep2 := convert_numberedRefs (urls0 ++ more1) hA2 hstA
  rw [hrefsA, reformat_eq b2 s2 _ secMap2 _ hsec2m hrep2, dictMax0_mapOfUrls] at h2
  obtain ⟨hkeys2, hstall2⟩ := convertGo_props s2 [] secMap2 hsec2 (by simp) (by simp)
  have hdf2 : dfind secMap2 L = some (L, n) := by
    rw [dfind_convertGo_last s2 [] secMap2 L hsec2, hn]
  have hmem2 := (dfind_some_mem secMap2 L (L, n) hdf2).1
  have hvu2 := secMap_val_unique s2 secMap2 hsec2 hnums2 L n hmem2
  obtain ⟨more2, j2, hB1, hB2, hB3, hB4, hB5⟩ :=
    consolidate_full secMap2 (urls0 ++ more1) [] [] L n (by simpa using hA2)
      (by intro u hu; exact hstA u (by simpa using hu)) hstall2 (by simp) hkeys2 hmem2 hvu2
  simp only [List.append_nil, List.length_nil, Nat.add_zero] at hB1 hB2 hB3 hB4 hB5
  have hpair2 : (subMGo (consolidate secMap2 (mapOfUrls 0 (urls0 ++ more1)) []
      (numberedRefs 0 (urls0 ++ more1)) (Int.ofNat (urls0 ++ more1).length)).1 .scan b2,
      (consolidate secMap2 (mapOfUrls 0 (urls0 ++ more1)) []
        (numberedRefs 0 (urls0 ++ more1)) (Int.ofNat (urls0 ++ more1).length)).2.1) =
      (o2, refsB) := by
    injection h2
  have ho2 : o2 = subMGo (consolidate secMap2 (mapOfUrls 0 (urls0 ++ more1)) []
      (numberedRefs 0 (urls0 ++ more1)) (Int.ofNat (urls0 ++ more1).length)).1 .scan b2 :=
    ((Prod.mk.injEq _ _ _ _).mp hpair2).1.symm
  have hrefsB : refsB = numberedRefs 0 (urls0 ++ more1 ++ more2) := by
    rw [← ((Prod.mk.injEq _ _ _ _).mp hpair2).2]
    exact hB1
  -- the two positions (hence global numbers) coincide
  have hj : j1 = j2 := by
    have hleft := posOf_append_left L (urls0 ++ more1) more2 j1 hA4
    have := hleft.symm.trans hB4
    injection this
  have hg1 : (1 : Int) ≤ Int.ofNat (j1 + 1) := by
    simp only [Int.ofNat_eq_coe]
    omega
  have hgne : Int.ofNat (j1 + 1) ≠ 0 := by
    simp only [Int.ofNat_eq_coe]
    omega
  rw [← hj] at hB5
  refine ⟨Int.ofNat (j1 + 1), m, n, _, _, hg1, hm, hn, ho1, ho2, hA5, hB5, ?_, ?_, ?_⟩
  · intro k hk
    unfold replace_reference
    rw [hk, hA5]
    show (if Int.ofNat (j1 + 1) ≠ 0 then
      '[' :: intRepr (Int.ofNat (j1 + 1)) ++ [']'] else []) = markerChars (Int.ofNat (j1 + 1))
    rw [if_pos hgne]
    rfl
  · intro k hk
    unfold replace_reference
    rw [hk, hB5]
    show (if Int.ofNat (j1 + 1) ≠ 0 then
      '[' :: intRepr (Int.ofNat (j1 + 1)) ++ [']'] else []) = markerChars (Int.ofNat (j1 + 1))
    rw [if_pos hgne]
    rfl
  · have hLmem : L ∈ urls0 ++ more1 ++ more2 :=
      posOf_some_mem L (urls0 ++ more1 ++ more2) j2 hB4
    have hstB : ∀ u ∈ urls0 ++ more1 ++ more2, Stripped u := by
      intro u hu
      rcases List.mem_append.mp hu with h0 | h0
      · exact hstA u h0
      · exact hB3 u h0
    rw [hrefsB, countP_numberedRefs L (urls0 ++ more1 ++ more2) 0 hstB]
    exact countP_eq_one_of_nodup_mem (urls0 ++ more1 ++ more2) hB2 L hLmem

/-- Witness for C2 at the spec's own example: locator `L` has local number 3 in
section 1 and local number 1 in section 2; both markers resolve to the global
number 2 and the final list has exactly one `L` entry. -/
theorem shared_locator_single_number_witness :
    GoodRefs [] ∧
    WellFormedRefs [str "[1] a", str "[3] L"] ∧
    WellFormedRefs [str "[1] L"] ∧
    str "L" ∈ parsedLocs [str "[1] a", str "[3] L"] ∧
    str "L" ∈ parsedLocs [str "[1] L"] ∧
    reformat_references (str "x[3]y") [str "[1] a", str "[3] L"] [] =
      .ok (str "x[2]y", [str "[1] a", str "[2] L"]) ∧
    reformat_references (str "z[1]") [str "[1] L"] [str "[1] a", str "[2] L"] =
      .ok (str "z[2]", [str "[1] a", str "[2] L"]) ∧
    (∃ g m n : Int, ∃ s2r1 s2r2 : List (Int × Int),
      1 ≤ g ∧
      lastNumFor (str "L") [str "[1] a", str "[3] L"] = some m ∧
      lastNumFor (str "L") [str "[1] L"] = some n ∧
      str "x[2]y" = subMGo s2r1 .scan (str "x[3]y") ∧
      str "z[2]" = subMGo s2r2 .scan (str "z[1]") ∧
      dfind s2r1 m = some (m, g) ∧ dfind s2r2 n = some (n, g) ∧
      (∀ k : Nat, (k : Int) = m → replace_reference s2r1 k = markerChars g) ∧
      (∀ k : Nat, (k : Int) = n → replace_reference s2r2 k = markerChars g) ∧
      ([str "[1] a", str "[2] L"].countP (fun e => entryLoc e = some (str "L"))) = 1) :=
  ⟨goodRefs_nil, ⟨by decide, by decide, by decide⟩, ⟨by decide, by decide, by decide⟩,
    by decide, by decide, by decide, by decide,
    shared_locator_single_number (str "x[3]y") (str "z[1]")
      [str "[1] a", str "[3] L"] [str "[1] L"] [] (str "L")
      (str "x[2]y") (str "z[2]")
      [str "[1] a", str "[2] L"] [str "[1] a", str "[2] L"]
      goodRefs_nil ⟨by decide, by decide, by decide⟩ ⟨by decide, by decide, by decide⟩
      (by decide) (by decide) (by decide) (by decide)⟩
